import Mathlib

/-!
Shallow embedding of `cache_system.py` (LRU/LFU cache with stats, factory
and stampede prevention) together with proofs of the specification claims.

Modelling conventions:
* keys are `Nat` (the Python code uses strings, but nothing depends on the
  key type; with string keys the heap tie-break would compare strings, with
  `Nat` keys it compares numbers — the tie is dead code either way because
  access timestamps are pairwise distinct in reachable states);
* Python values are `Option Nat`: `none` models the Python value `None`,
  which the code conflates with "absent" in `get`;
* `datetime.now()` is modelled by a strictly increasing `clock` counter;
* Python dicts / `OrderedDict`s are association lists in insertion order
  (for `OrderedDict`, head = least recently used);
* a Python function that can raise returns `Option`/`Except`.
-/

namespace CacheSystem

abbrev Key := Nat

/-- A Python value as stored in the cache: `none` is Python `None`. -/
abbrev Val := Option Nat

/-! ### Association-list helpers (model of Python dict / OrderedDict) -/

/-- Lookup in an association list (first matching key, as in a dict). -/
def alookup (k : Key) : List (Key × α) → Option α
  | [] => none
  | (k', v) :: t => if k' = k then some v else alookup k t

/-- Remove the first entry with the given key (model of `del d[k]`). -/
def aerase (k : Key) : List (Key × α) → List (Key × α)
  | [] => []
  | (k', v) :: t => if k' = k then t else (k', v) :: aerase k t

/-- Update in place the first entry with the given key (model of
`d[k] = f (d[k])` for a present key: position in the dict is kept). -/
def aupdate (k : Key) (f : α → α) : List (Key × α) → List (Key × α)
  | [] => []
  | (k', v) :: t => if k' = k then (k', f v) :: t else (k', v) :: aupdate k f t

/-- The keys of an association list, in order. -/
def keysOf (l : List (Key × α)) : List Key := l.map Prod.fst

@[simp] theorem keysOf_nil : keysOf ([] : List (Key × α)) = [] := rfl

@[simp] theorem keysOf_cons (p : Key × α) (t : List (Key × α)) :
    keysOf (p :: t) = p.1 :: keysOf t := rfl

@[simp] theorem keysOf_append (l₁ l₂ : List (Key × α)) :
    keysOf (l₁ ++ l₂) = keysOf l₁ ++ keysOf l₂ := by
  simp [keysOf]

@[simp] theorem alookup_nil (k : Key) : alookup k ([] : List (Key × α)) = none := rfl

@[simp] theorem alookup_cons_self (k : Key) (v : α) (t : List (Key × α)) :
    alookup k ((k, v) :: t) = some v := by
  simp [alookup]

@[simp] theorem alookup_cons_ne (k k' : Key) (v : α) (t : List (Key × α))
    (h : k' ≠ k) : alookup k ((k', v) :: t) = alookup k t := by
  simp [alookup, h]

@[simp] theorem aerase_nil (k : Key) : aerase k ([] : List (Key × α)) = [] := rfl

@[simp] theorem aerase_cons_self (k : Key) (v : α) (t : List (Key × α)) :
    aerase k ((k, v) :: t) = t := by
  simp [aerase]

@[simp] theorem aerase_cons_ne (k k' : Key) (v : α) (t : List (Key × α))
    (h : k' ≠ k) : aerase k ((k', v) :: t) = (k', v) :: aerase k t := by
  simp [aerase, h]

@[simp] theorem aupdate_nil (k : Key) (f : α → α) :
    aupdate k f ([] : List (Key × α)) = [] := rfl

@[simp] theorem aupdate_cons_self (k : Key) (f : α → α) (v : α) (t : List (Key × α)) :
    aupdate k f ((k, v) :: t) = (k, f v) :: t := by
  simp [aupdate]

@[simp] theorem aupdate_cons_ne (k k' : Key) (f : α → α) (v : α) (t : List (Key × α))
    (h : k' ≠ k) : aupdate k f ((k', v) :: t) = (k', v) :: aupdate k f t := by
  simp [aupdate, h]

theorem alookup_eq_none (k : Key) (l : List (Key × α)) :
    alookup k l = none ↔ k ∉ keysOf l := by
  induction l with
  | nil => simp [alookup]
  | cons p t ih =>
    obtain ⟨k', v⟩ := p
    by_cases h : k' = k
    · subst h; simp [alookup]
    · simp only [alookup, if_neg h, keysOf_cons, List.mem_cons, ih]
      constructor
      · intro hn hm
        rcases hm with rfl | hm
        · exact h rfl
        · exact hn hm
      · intro hn hm
        exact hn (Or.inr hm)

theorem alookup_isSome_of_mem (k : Key) (l : List (Key × α)) (h : k ∈ keysOf l) :
    ∃ v, alookup k l = some v := by
  cases hv : alookup k l with
  | none => exact absurd h ((alookup_eq_none k l).mp hv)
  | some v => exact ⟨v, rfl⟩

theorem mem_of_alookup_eq_some (k : Key) (l : List (Key × α)) (v : α)
    (h : alookup k l = some v) : (k, v) ∈ l := by
  induction l with
  | nil => simp [alookup] at h
  | cons p t ih =>
    obtain ⟨k', w⟩ := p
    by_cases hk : k' = k
    · subst hk
      simp [alookup] at h
      subst h
      exact List.mem_cons_self _ _
    · simp only [alookup, if_neg hk] at h
      exact List.mem_cons_of_mem _ (ih h)

theorem alookup_append_self (k : Key) (l : List (Key × α)) (v : α)
    (h : k ∉ keysOf l) : alookup k (l ++ [(k, v)]) = some v := by
  induction l with
  | nil => simp [alookup]
  | cons p t ih =>
    obtain ⟨k', w⟩ := p
    simp only [keysOf_cons, List.mem_cons, not_or] at h
    have hk : ¬ k' = k := fun he => h.1 he.symm
    simpa [alookup, hk] using ih h.2

theorem alookup_append_left (k : Key) (l : List (Key × α)) (p : Key × α)
    (h : p.1 ≠ k) : alookup k (l ++ [p]) = alookup k l := by
  induction l with
  | nil =>
    obtain ⟨k', v⟩ := p
    simp only at h
    simp [alookup, h]
  | cons q t ih =>
    obtain ⟨k₀, w⟩ := q
    by_cases hk : k₀ = k <;> simp [alookup, hk, ih]

theorem aerase_sublist (k : Key) (l : List (Key × α)) : (aerase k l).Sublist l := by
  induction l with
  | nil => simp [aerase]
  | cons p t ih =>
    obtain ⟨k', v⟩ := p
    by_cases h : k' = k
    · simp only [aerase, if_pos h]
      exact List.sublist_cons_self _ _
    · simp only [aerase, if_neg h]
      exact ih.cons₂ _

theorem keysOf_aerase_sublist (k : Key) (l : List (Key × α)) :
    (keysOf (aerase k l)).Sublist (keysOf l) := by
  simpa [keysOf] using (aerase_sublist k l).map Prod.fst

theorem length_aerase_of_mem (k : Key) (l : List (Key × α)) (h : k ∈ keysOf l) :
    (aerase k l).length + 1 = l.length := by
  induction l with
  | nil => simp at h
  | cons p t ih =>
    obtain ⟨k', v⟩ := p
    by_cases hk : k' = k
    · simp [aerase, hk]
    · simp only [keysOf_cons, List.mem_cons] at h
      rcases h with h | h
      · exact absurd h.symm hk
      · simp [aerase, hk, ih h]

theorem aerase_of_not_mem (k : Key) (l : List (Key × α)) (h : k ∉ keysOf l) :
    aerase k l = l := by
  induction l with
  | nil => simp [aerase]
  | cons p t ih =>
    obtain ⟨k', v⟩ := p
    simp only [keysOf_cons, List.mem_cons, not_or] at h
    have hk : ¬ k' = k := fun he => h.1 he.symm
    simp [aerase, hk, ih h.2]

theorem not_mem_keysOf_aerase (k : Key) (l : List (Key × α))
    (hnd : (keysOf l).Nodup) : k ∉ keysOf (aerase k l) := by
  induction l with
  | nil => simp [aerase]
  | cons p t ih =>
    obtain ⟨k', v⟩ := p
    simp only [keysOf_cons, List.nodup_cons] at hnd
    by_cases h : k' = k
    · subst h
      simp only [aerase, if_pos rfl]
      exact hnd.1
    · simp only [aerase, if_neg h, keysOf_cons, List.mem_cons]
      push_neg
      exact ⟨fun he => h he.symm, ih hnd.2⟩

theorem mem_keysOf_aerase_of_ne (k k' : Key) (l : List (Key × α)) (hne : k' ≠ k) :
    k' ∈ keysOf (aerase k l) ↔ k' ∈ keysOf l := by
  induction l with
  | nil => simp [aerase]
  | cons p t ih =>
    obtain ⟨k₀, v⟩ := p
    by_cases h : k₀ = k
    · subst h
      simp only [aerase, if_pos rfl, keysOf_cons, List.mem_cons]
      constructor
      · exact Or.inr
      · rintro (rfl | hm)
        · exact absurd rfl hne
        · exact hm
    · simp only [aerase, if_neg h, keysOf_cons, List.mem_cons]
      rw [ih]

theorem keysOf_aupdate (k : Key) (f : α → α) (l : List (Key × α)) :
    keysOf (aupdate k f l) = keysOf l := by
  induction l with
  | nil => simp [aupdate]
  | cons p t ih =>
    obtain ⟨k', v⟩ := p
    by_cases h : k' = k
    · simp [aupdate, h]
    · simp [aupdate, h, ih]

theorem length_aupdate (k : Key) (f : α → α) (l : List (Key × α)) :
    (aupdate k f l).length = l.length := by
  induction l with
  | nil => simp [aupdate]
  | cons p t ih =>
    obtain ⟨k', v⟩ := p
    by_cases h : k' = k <;> simp [aupdate, h, ih]

theorem alookup_aupdate_self (k : Key) (f : α → α) (l : List (Key × α)) :
    alookup k (aupdate k f l) = (alookup k l).map f := by
  induction l with
  | nil => simp [aupdate, alookup]
  | cons p t ih =>
    obtain ⟨k', v⟩ := p
    by_cases h : k' = k <;> simp [aupdate, alookup, h, ih]

theorem alookup_aupdate_ne (k k' : Key) (f : α → α) (l : List (Key × α))
    (hne : k' ≠ k) : alookup k' (aupdate k f l) = alookup k' l := by
  induction l with
  | nil => simp [aupdate]
  | cons p t ih =>
    obtain ⟨k₀, v⟩ := p
    by_cases h : k₀ = k
    · subst h
      have h' : ¬ k₀ = k' := fun he => hne he.symm
      simp [aupdate, alookup, h']
    · simp [aupdate, alookup, h, ih]

/-! ### `LRUStrategy` (source lines 51-87)

`self.cache` is an `OrderedDict`: modelled as an association list in
insertion order, head = least recently used, last = most recently used.
-/

structure LRUStrategy where
  capacity : Nat
  cache : List (Key × Val)
  deriving DecidableEq

def LRUStrategy.init (capacity : Nat) : LRUStrategy := ⟨capacity, []⟩

def LRUStrategy.size (s : LRUStrategy) : Nat := s.cache.length

/-- `LRUStrategy.get`: on a hit, `move_to_end` and return the stored value;
on a miss return `None` (our `none`). The returned `Val` conflates the two,
exactly as the Python return value does. -/
def LRUStrategy.get (s : LRUStrategy) (k : Key) : Val × LRUStrategy :=
  match alookup k s.cache with
  | none => (none, s)
  | some v => (v, ⟨s.capacity, aerase k s.cache ++ [(k, v)]⟩)

/-- `LRUStrategy.put`: update-and-refresh an existing key, otherwise evict
the head (`popitem(last=False)`) when at capacity and append the new key.
`none` models the `KeyError` that `popitem` raises on an empty dict (only
reachable with capacity 0). -/
def LRUStrategy.put (s : LRUStrategy) (k : Key) (v : Val) :
    Option (Option Key × LRUStrategy) :=
  if (alookup k s.cache).isSome then
    some (none, ⟨s.capacity, aerase k s.cache ++ [(k, v)]⟩)
  else if s.capacity ≤ s.cache.length then
    match s.cache with
    | [] => none
    | (ek, _) :: rest => some (some ek, ⟨s.capacity, rest ++ [(k, v)]⟩)
  else
    some (none, ⟨s.capacity, s.cache ++ [(k, v)]⟩)

def LRUStrategy.remove (s : LRUStrategy) (k : Key) : Bool × LRUStrategy :=
  if (alookup k s.cache).isSome then
    (true, ⟨s.capacity, aerase k s.cache⟩)
  else
    (false, s)

/-! ### `LFUStrategy` (source lines 90-153)

The source keeps three key-synchronized dicts (`cache`, `freq`,
`access_time`); they are modelled as one association list from key to the
triple of fields, plus the explicit `min_heap` of
`(frequency, timestamp, key)` triples and the timestamp `clock`.
-/

structure LFUData where
  value : Val
  freq : Nat
  atime : Nat
  deriving DecidableEq

/-- A `(frequency, timestamp, key)` heap element, ordered lexicographically
exactly as Python's `heapq` orders tuples (`Key` unfolded to `Nat`). -/
abbrev HeapElem := Nat × Nat × Nat

/-- Lexicographic comparison of `(frequency, timestamp, key)` triples, as
done by Python tuple comparison inside `heapq`. -/
def hle (a b : HeapElem) : Bool :=
  Nat.blt a.1 b.1 ||
    (a.1 == b.1 && (Nat.blt a.2.1 b.2.1 || (a.2.1 == b.2.1 && Nat.ble a.2.2 b.2.2)))

/-- The minimum of a heap list, i.e. what `heapq.heappop` returns. -/
def heapMin : List HeapElem → Option HeapElem
  | [] => none
  | x :: xs => some (xs.foldl (fun m y => if hle y m then y else m) x)

/-- `_rebuild_heap` (source lines 136-141): push every cached key with its
frequency and access time. -/
def heapOf (entries : List (Key × LFUData)) : List HeapElem :=
  entries.map (fun p => (p.2.freq, p.2.atime, p.1))

structure LFUStrategy where
  capacity : Nat
  entries : List (Key × LFUData)
  min_heap : List HeapElem
  clock : Nat
  deriving DecidableEq

def LFUStrategy.init (capacity : Nat) : LFUStrategy := ⟨capacity, [], [], 0⟩

def LFUStrategy.size (s : LFUStrategy) : Nat := s.entries.length

/-- `LFUStrategy.get`: on a hit, bump the frequency, stamp the access time
with `datetime.now()` (the clock) and rebuild the heap. -/
def LFUStrategy.get (s : LFUStrategy) (k : Key) : Val × LFUStrategy :=
  match alookup k s.entries with
  | none => (none, s)
  | some d =>
    let entries := aupdate k (fun e => ⟨e.value, e.freq + 1, s.clock⟩) s.entries
    (d.value, ⟨s.capacity, entries, heapOf entries, s.clock + 1⟩)

/-- `LFUStrategy.put`: update an existing key in place, otherwise pop the
heap minimum and delete that key when at capacity (guarded by the heap being
nonempty), insert the new key with frequency 1, and rebuild the heap.
`del` on the evicted key is a plain erase: under the heap-synchronisation
invariant the popped key is always present. -/
def LFUStrategy.put (s : LFUStrategy) (k : Key) (v : Val) :
    Option Key × LFUStrategy :=
  if (alookup k s.entries).isSome then
    let entries := aupdate k (fun e => ⟨v, e.freq + 1, s.clock⟩) s.entries
    (none, ⟨s.capacity, entries, heapOf entries, s.clock + 1⟩)
  else if s.capacity ≤ s.entries.length then
    match heapMin s.min_heap with
    | some (_, _, ek) =>
      let entries := aerase ek s.entries ++ [(k, ⟨v, 1, s.clock⟩)]
      (some ek, ⟨s.capacity, entries, heapOf entries, s.clock + 1⟩)
    | none =>
      let entries := s.entries ++ [(k, ⟨v, 1, s.clock⟩)]
      (none, ⟨s.capacity, entries, heapOf entries, s.clock + 1⟩)
  else
    let entries := s.entries ++ [(k, ⟨v, 1, s.clock⟩)]
    (none, ⟨s.capacity, entries, heapOf entries, s.clock + 1⟩)

def LFUStrategy.remove (s : LFUStrategy) (k : Key) : Bool × LFUStrategy :=
  if (alookup k s.entries).isSome then
    let entries := aerase k s.entries
    (true, ⟨s.capacity, entries, heapOf entries, s.clock⟩)
  else
    (false, s)

/-! ### `Cache` (source lines 190-241) and `CacheFactory` (247-262) -/

/-- The eviction strategy held by a `Cache` (the Strategy pattern). -/
inductive Strategy where
  | lru : LRUStrategy → Strategy
  | lfu : LFUStrategy → Strategy
  deriving DecidableEq

def Strategy.get : Strategy → Key → Val × Strategy
  | .lru s, k => let r := s.get k; (r.1, .lru r.2)
  | .lfu s, k => let r := s.get k; (r.1, .lfu r.2)

def Strategy.put : Strategy → Key → Val → Option (Option Key × Strategy)
  | .lru s, k, v => (s.put k v).map (fun r => (r.1, .lru r.2))
  | .lfu s, k, v => let r := s.put k v; some (r.1, .lfu r.2)

def Strategy.remove : Strategy → Key → Bool × Strategy
  | .lru s, k => let r := s.remove k; (r.1, .lru r.2)
  | .lfu s, k => let r := s.remove k; (r.1, .lfu r.2)

def Strategy.size : Strategy → Nat
  | .lru s => s.size
  | .lfu s => s.size

/-- The keys currently stored by a strategy. -/
def Strategy.keys : Strategy → List Key
  | .lru s => keysOf s.cache
  | .lfu s => keysOf s.entries

/-- The stored value of a key: `none` when absent, `some v` when the key is
present storing the Python value `v` (which may itself be `None`). -/
def Strategy.find? : Strategy → Key → Option Val
  | .lru s, k => alookup k s.cache
  | .lfu s, k => (alookup k s.entries).map LFUData.value

/-- `Cache` holds its capacity, the strategy, and the stats dict
`{"hits": _, "misses": _}` (source lines 193-196). -/
structure Cache where
  capacity : Nat
  strategy : Strategy
  hits : Nat
  misses : Nat
  deriving DecidableEq

/-- `Cache.get` (source lines 198-205): the hit test is
`if value is not None`, so a stored `None` counts as a miss. -/
def Cache.get (c : Cache) (k : Key) : Val × Cache :=
  let r := c.strategy.get k
  if r.1.isSome then
    (r.1, { c with strategy := r.2, hits := c.hits + 1 })
  else
    (r.1, { c with strategy := r.2, misses := c.misses + 1 })

/-- `Cache.put` (source lines 207-213): delegate to the strategy; the
eviction hook does nothing. -/
def Cache.put (c : Cache) (k : Key) (v : Val) : Option (Option Key × Cache) :=
  (c.strategy.put k v).map (fun r => (r.1, { c with strategy := r.2 }))

def Cache.remove (c : Cache) (k : Key) : Bool × Cache :=
  let r := c.strategy.remove k
  (r.1, { c with strategy := r.2 })

def Cache.size (c : Cache) : Nat := c.strategy.size

def Cache.keys (c : Cache) : List Key := c.strategy.keys

def Cache.find? (c : Cache) (k : Key) : Option Val := c.strategy.find? k

/-- The dict returned by `get_stats` (source lines 232-241). -/
structure Stats where
  hits : Nat
  misses : Nat
  hit_rate : ℚ
  size : Nat
  capacity : Nat
  deriving DecidableEq

/-- `Cache.get_stats` (source lines 232-241): `hit_rate = hits / total` when
`total > 0`, else `0`; division is modelled exactly over `ℚ`. -/
def Cache.get_stats (c : Cache) : Stats :=
  let total := c.hits + c.misses
  let hit_rate : ℚ := if 0 < total then (c.hits : ℚ) / (total : ℚ) else 0
  ⟨c.hits, c.misses, hit_rate, c.size, c.capacity⟩

/-- `CacheFactory.create_lru_cache` with the default `thread_safe=False`
(source lines 250-255); there is no capacity validation in the source. -/
def CacheFactory.create_lru_cache (capacity : Nat) : Cache :=
  ⟨capacity, .lru (LRUStrategy.init capacity), 0, 0⟩

/-- `CacheFactory.create_lfu_cache` with the default `thread_safe=False`
(source lines 257-262); there is no capacity validation in the source. -/
def CacheFactory.create_lfu_cache (capacity : Nat) : Cache :=
  ⟨capacity, .lfu (LFUStrategy.init capacity), 0, 0⟩

/-! ### Operation sequences on a cache -/

inductive Op where
  | put : Key → Val → Op
  | get : Key → Op
  | remove : Key → Op
  deriving DecidableEq

def Cache.applyOp (c : Cache) : Op → Option Cache
  | .put k v => (c.put k v).map Prod.snd
  | .get k => some (c.get k).2
  | .remove k => some (c.remove k).2

def Cache.runOps (c : Cache) : List Op → Option Cache
  | [] => some c
  | op :: t =>
    match c.applyOp op with
    | none => none
    | some c' => c'.runOps t

/-! ### `CacheStampedePrevention` (source lines 268-305)

The model below is the single-thread execution of `get_or_compute`: every lock
acquisition succeeds immediately.  `key_locks` is the set of keys that have
a lock object in the coordinator registry.  The producer `compute_func` is
modelled as a function from the key and a producer-local state (a shared
counter) to `Except` of an error or a value and the new producer state, so
that a "counting producer" and a failing producer are both expressible.
-/

structure CacheStampedePrevention where
  cache : Cache
  key_locks : List Key
  deriving DecidableEq

/-- Remove a key from the lock registry (model of
`if key in self.key_locks: del self.key_locks[key]`). -/
def eraseLock (k : Key) : List Key → List Key
  | [] => []
  | k' :: t => if k' = k then t else k' :: eraseLock k t

/-- `get_or_compute` (source lines 276-305), single-thread semantics.
Returns `none` when an internal `KeyError` escapes from `Cache.put`
(capacity-0 LRU only).  On producer failure the exception propagates out of
the `with lock:` block: no cache write happens and — because there is no
`try/finally` — the registry entry for the key is *not* deleted. -/
def CacheStampedePrevention.get_or_compute (s : CacheStampedePrevention)
    (k : Key) (compute_func : Key → Nat → Except Nat (Val × Nat)) (ctr : Nat) :
    Option (Except Nat Val × CacheStampedePrevention × Nat) :=
  let r₁ := s.cache.get k
  if r₁.1.isSome then
    some (.ok r₁.1, ⟨r₁.2, s.key_locks⟩, ctr)
  else
    let locks₁ := if k ∈ s.key_locks then s.key_locks else s.key_locks ++ [k]
    let r₂ := r₁.2.get k
    if r₂.1.isSome then
      some (.ok r₂.1, ⟨r₂.2, locks₁⟩, ctr)
    else
      match compute_func k ctr with
      | .error e => some (.error e, ⟨r₂.2, locks₁⟩, ctr)
      | .ok (v, ctr') =>
        match r₂.2.put k v with
        | none => none
        | some (_, c₃) => some (.ok v, ⟨c₃, eraseLock k locks₁⟩, ctr')

/-- Run `n` sequential `get_or_compute` calls for the same key and producer,
collecting each call result. -/
def CacheStampedePrevention.runCalls (k : Key)
    (compute_func : Key → Nat → Except Nat (Val × Nat)) :
    Nat → CacheStampedePrevention × Nat →
    Option (List (Except Nat Val) × CacheStampedePrevention × Nat)
  | 0, (s, ctr) => some ([], s, ctr)
  | n + 1, (s, ctr) =>
    match s.get_or_compute k compute_func ctr with
    | none => none
    | some (r, s', ctr') =>
      (CacheStampedePrevention.runCalls k compute_func n (s', ctr')).map
        (fun q => (r :: q.1, q.2))

/-! ### Well-formedness invariants -/

/-- Invariant of an LRU state: distinct keys, size bounded by capacity. -/
def LRUStrategy.WF (s : LRUStrategy) : Prop :=
  (keysOf s.cache).Nodup ∧ s.cache.length ≤ s.capacity

/-- Invariant of an LFU state: distinct keys, size bounded by capacity, the
heap in sync with the entries, and access timestamps below the clock and
pairwise distinct. -/
def LFUStrategy.WF (s : LFUStrategy) : Prop :=
  (keysOf s.entries).Nodup ∧ s.entries.length ≤ s.capacity ∧
  s.min_heap = heapOf s.entries ∧
  (∀ p ∈ s.entries, p.2.atime < s.clock) ∧
  (s.entries.map (fun p => p.2.atime)).Nodup

def Strategy.WF : Strategy → Prop
  | .lru s => s.WF
  | .lfu s => s.WF

def Strategy.capacityOf : Strategy → Nat
  | .lru s => s.capacity
  | .lfu s => s.capacity

def Cache.WF (c : Cache) : Prop :=
  c.strategy.WF ∧ c.strategy.capacityOf = c.capacity

theorem Strategy.size_eq_keys_length (s : Strategy) : s.size = s.keys.length := by
  cases s <;> simp [Strategy.size, Strategy.keys, LRUStrategy.size, LFUStrategy.size, keysOf]

theorem Strategy.keys_nodup_of_wf (s : Strategy) (h : s.WF) : s.keys.Nodup := by
  cases s with
  | lru s => exact h.1
  | lfu s => exact h.1

theorem Strategy.size_le_of_wf (s : Strategy) (h : s.WF) : s.size ≤ s.capacityOf := by
  cases s with
  | lru s => exact h.2
  | lfu s => exact h.2.1

/-! ### LRU preservation lemmas -/

theorem nodup_keys_refresh (l : List (Key × α)) (k : Key) (v : α)
    (hnd : (keysOf l).Nodup) : (keysOf (aerase k l ++ [(k, v)])).Nodup := by
  have h1 : (keysOf (aerase k l)).Nodup := hnd.sublist (keysOf_aerase_sublist k l)
  have h2 := not_mem_keysOf_aerase k l hnd
  have h3 : (keysOf (aerase k l)).Disjoint [k] := by
    intro a ha hb
    simp at hb
    subst hb
    exact h2 ha
  simpa using h1.append (List.nodup_singleton k) h3

theorem nodup_keys_append (l : List (Key × α)) (k : Key) (v : α)
    (hnd : (keysOf l).Nodup) (hk : k ∉ keysOf l) :
    (keysOf (l ++ [(k, v)])).Nodup := by
  have h3 : (keysOf l).Disjoint [k] := by
    intro a ha hb
    simp at hb
    subst hb
    exact hk ha
  simpa using hnd.append (List.nodup_singleton k) h3

theorem lru_get_wf (s : LRUStrategy) (k : Key) (h : s.WF) :
    (s.get k).2.WF ∧ (s.get k).2.capacity = s.capacity := by
  unfold LRUStrategy.get
  cases hl : alookup k s.cache with
  | none => exact ⟨h, rfl⟩
  | some v =>
    have hk : k ∈ keysOf s.cache := by
      by_contra hm
      rw [(alookup_eq_none k s.cache).mpr hm] at hl
      exact Option.noConfusion hl
    refine ⟨⟨nodup_keys_refresh _ _ _ h.1, ?_⟩, rfl⟩
    have h1 := length_aerase_of_mem k s.cache hk
    have h2 := h.2
    simp only [List.length_append, List.length_singleton]
    omega

theorem lru_put_wf (s : LRUStrategy) (k : Key) (v : Val) (h : s.WF)
    (hcap : 1 ≤ s.capacity) :
    ∃ ev s', s.put k v = some (ev, s') ∧ s'.WF ∧ s'.capacity = s.capacity := by
  by_cases hl : (alookup k s.cache).isSome = true
  · have hk : k ∈ keysOf s.cache := by
      by_contra hm
      rw [(alookup_eq_none k s.cache).mpr hm] at hl
      simp at hl
    refine ⟨none, ⟨s.capacity, aerase k s.cache ++ [(k, v)]⟩, ?_, ⟨nodup_keys_refresh _ _ _ h.1, ?_⟩, rfl⟩
    · simp [LRUStrategy.put, hl]
    · have h1 := length_aerase_of_mem k s.cache hk
      have h2 := h.2
      simp only [List.length_append, List.length_singleton]
      omega
  · have hk : k ∉ keysOf s.cache := by
      intro hm
      obtain ⟨w, hw⟩ := alookup_isSome_of_mem k s.cache hm
      simp [hw] at hl
    by_cases hfull : s.capacity ≤ s.cache.length
    · obtain ⟨p, rest, hps⟩ : ∃ p rest, s.cache = p :: rest := by
        cases hc : s.cache with
        | nil =>
          rw [hc] at hfull
          simp at hfull
          omega
        | cons p rest => exact ⟨p, rest, rfl⟩
      obtain ⟨ek, ev⟩ := p
      have hnd' : (keysOf (rest ++ [(k, v)])).Nodup := by
        have h1 : (keysOf rest).Nodup := by
          have hh := h.1
          rw [hps] at hh
          simp at hh
          exact hh.2
        refine nodup_keys_append rest k v h1 ?_
        intro hm
        apply hk
        rw [hps]
        simp [hm]
      refine ⟨some ek, ⟨s.capacity, rest ++ [(k, v)]⟩, ?_, ⟨hnd', ?_⟩, rfl⟩
      · unfold LRUStrategy.put
        rw [if_neg hl, if_pos hfull, hps]
      · have hlen : s.cache.length ≤ s.capacity := h.2
        rw [hps] at hlen
        simp only [List.length_append, List.length_singleton]
        simp at hlen
        omega
    · refine ⟨none, ⟨s.capacity, s.cache ++ [(k, v)]⟩, ?_,
        ⟨nodup_keys_append _ _ _ h.1 hk, ?_⟩, rfl⟩
      · simp [LRUStrategy.put, hl, hfull]
      · simp only [List.length_append, List.length_singleton]
        omega

theorem lru_remove_wf (s : LRUStrategy) (k : Key) (h : s.WF) :
    (s.remove k).2.WF ∧ (s.remove k).2.capacity = s.capacity := by
  unfold LRUStrategy.remove
  by_cases hl : (alookup k s.cache).isSome = true
  · simp only [if_pos hl]
    exact ⟨⟨h.1.sublist (keysOf_aerase_sublist k s.cache),
      le_trans (aerase_sublist k s.cache).length_le h.2⟩, by simp⟩
  · simp only [if_neg hl]
    exact ⟨h, by simp⟩

/-! ### Heap-order lemmas -/

theorem hle_iff (a b : HeapElem) : hle a b = true ↔
    a.1 < b.1 ∨ (a.1 = b.1 ∧ (a.2.1 < b.2.1 ∨ (a.2.1 = b.2.1 ∧ a.2.2 ≤ b.2.2))) := by
  simp [hle, Nat.blt_eq, Nat.ble_eq]

theorem hle_refl (a : HeapElem) : hle a a = true := by
  rw [hle_iff]
  omega

theorem hle_total (a b : HeapElem) : hle a b = true ∨ hle b a = true := by
  rw [hle_iff, hle_iff]
  omega

theorem hle_trans (a b c : HeapElem) (h1 : hle a b = true) (h2 : hle b c = true) :
    hle a c = true := by
  rw [hle_iff] at h1 h2 ⊢
  omega

theorem foldl_min_mem (a : HeapElem) (xs : List HeapElem) :
    xs.foldl (fun m y => if hle y m then y else m) a ∈ a :: xs := by
  induction xs generalizing a with
  | nil => simp
  | cons x xs ih =>
    simp only [List.foldl_cons]
    have h := ih (if hle x a then x else a)
    by_cases hc : hle x a = true <;> simp [hc] at h ⊢ <;> tauto

theorem foldl_min_le (xs : List HeapElem) :
    ∀ a, ∀ y ∈ a :: xs, hle (xs.foldl (fun m z => if hle z m then z else m) a) y = true := by
  induction xs with
  | nil =>
    intro a y hy
    simp at hy
    subst hy
    exact hle_refl y
  | cons x xs ih =>
    intro a y hy
    simp only [List.foldl_cons]
    have hy' : y = a ∨ y = x ∨ y ∈ xs := by simpa using hy
    by_cases hc : hle x a = true
    · rw [if_pos hc]
      rcases hy' with h | h | h
      · rw [h]
        exact hle_trans _ _ _ (ih x x (List.mem_cons_self x xs)) hc
      · rw [h]
        exact ih x x (List.mem_cons_self x xs)
      · exact ih x y (List.mem_cons_of_mem _ h)
    · rw [if_neg hc]
      have hax : hle a x = true := (hle_total x a).resolve_left hc
      rcases hy' with h | h | h
      · rw [h]
        exact ih a a (List.mem_cons_self a xs)
      · rw [h]
        exact hle_trans _ _ _ (ih a a (List.mem_cons_self a xs)) hax
      · exact ih a y (List.mem_cons_of_mem _ h)

theorem heapMin_spec (l : List HeapElem) (m : HeapElem) (h : heapMin l = some m) :
    m ∈ l ∧ ∀ y ∈ l, hle m y = true := by
  cases l with
  | nil => simp [heapMin] at h
  | cons x xs =>
    simp only [heapMin, Option.some_inj] at h
    subst h
    exact ⟨foldl_min_mem x xs, fun y hy => foldl_min_le xs x y hy⟩

theorem heapMin_isSome (l : List HeapElem) (h : l ≠ []) : ∃ m, heapMin l = some m := by
  cases l with
  | nil => exact absurd rfl h
  | cons x xs => exact ⟨_, rfl⟩

theorem mem_heapOf (entries : List (Key × LFUData)) (m : HeapElem) :
    m ∈ heapOf entries ↔ ∃ p ∈ entries, (p.2.freq, p.2.atime, p.1) = m := by
  simp [heapOf]

/-! ### LFU preservation lemmas -/

theorem mem_aupdate (k : Key) (f : α → α) (l : List (Key × α)) (p : Key × α)
    (hp : p ∈ aupdate k f l) :
    p ∈ l ∨ (p.1 = k ∧ ∃ d, (k, d) ∈ l ∧ p.2 = f d) := by
  induction l with
  | nil => simp [aupdate] at hp
  | cons q t ih =>
    obtain ⟨k', v⟩ := q
    by_cases h : k' = k
    · subst h
      simp only [aupdate, if_pos rfl] at hp
      rcases List.mem_cons.mp hp with rfl | hp
      · exact Or.inr ⟨rfl, v, List.mem_cons_self _ _, rfl⟩
      · exact Or.inl (List.mem_cons_of_mem _ hp)
    · simp only [aupdate, if_neg h] at hp
      rcases List.mem_cons.mp hp with rfl | hp
      · exact Or.inl (List.mem_cons_self _ _)
      · rcases ih hp with h1 | ⟨h1, d, hd, he⟩
        · exact Or.inl (List.mem_cons_of_mem _ h1)
        · exact Or.inr ⟨h1, d, List.mem_cons_of_mem _ hd, he⟩

theorem atimes_aupdate_nodup (k : Key) (f : LFUData → LFUData)
    (l : List (Key × LFUData)) (c : Nat) (hf : ∀ e, (f e).atime = c)
    (hlt : ∀ p ∈ l, p.2.atime < c)
    (hnd : (l.map (fun p => p.2.atime)).Nodup) :
    ((aupdate k f l).map (fun p => p.2.atime)).Nodup := by
  induction l with
  | nil => simp
  | cons q t ih =>
    obtain ⟨k', v⟩ := q
    rw [List.map_cons, List.nodup_cons] at hnd
    have hltt : ∀ p ∈ t, p.2.atime < c := fun p hp => hlt p (List.mem_cons_of_mem _ hp)
    by_cases h : k' = k
    · subst h
      rw [aupdate_cons_self, List.map_cons]
      refine List.nodup_cons.mpr ⟨?_, hnd.2⟩
      rw [hf v]
      intro hm
      obtain ⟨p, hp, he⟩ := List.mem_map.mp hm
      have := hltt p hp
      omega
    · rw [aupdate_cons_ne _ _ _ _ _ h, List.map_cons]
      refine List.nodup_cons.mpr ⟨?_, ih hltt hnd.2⟩
      intro hm
      obtain ⟨p, hp, he⟩ := List.mem_map.mp hm
      rcases mem_aupdate k f t p hp with h1 | ⟨_, d, hd, he2⟩
      · exact hnd.1 (List.mem_map.mpr ⟨p, h1, he⟩)
      · have h2 : p.2.atime = c := by rw [he2, hf]
        have h3 := hlt (k', v) (List.mem_cons_self _ _)
        simp only at he h3
        omega

theorem atimes_aupdate_lt (k : Key) (f : LFUData → LFUData)
    (l : List (Key × LFUData)) (c : Nat) (hf : ∀ e, (f e).atime = c)
    (hlt : ∀ p ∈ l, p.2.atime < c) :
    ∀ p ∈ aupdate k f l, p.2.atime < c + 1 := by
  intro p hp
  rcases mem_aupdate k f l p hp with h1 | ⟨_, d, _, he⟩
  · exact Nat.lt_succ_of_lt (hlt p h1)
  · rw [he, hf]
    omega

/-- Appending a fresh key stamped with the current clock preserves the LFU
entry invariants. -/
theorem lfu_append_wf (l : List (Key × LFUData)) (k : Key) (v : Val) (c : Nat)
    (hnd : (keysOf l).Nodup) (hk : k ∉ keysOf l)
    (hlt : ∀ p ∈ l, p.2.atime < c)
    (hand : (l.map (fun p => p.2.atime)).Nodup) :
    (keysOf (l ++ [(k, (⟨v, 1, c⟩ : LFUData))])).Nodup ∧
    (∀ p ∈ l ++ [(k, (⟨v, 1, c⟩ : LFUData))], p.2.atime < c + 1) ∧
    ((l ++ [(k, (⟨v, 1, c⟩ : LFUData))]).map (fun p => p.2.atime)).Nodup := by
  refine ⟨nodup_keys_append l k _ hnd hk, ?_, ?_⟩
  · intro p hp
    rcases List.mem_append.mp hp with h1 | h1
    · exact Nat.lt_succ_of_lt (hlt p h1)
    · rw [List.mem_singleton] at h1
      subst h1
      exact Nat.lt_succ_self c
  · rw [List.map_append, List.map_singleton]
    refine hand.append (List.nodup_singleton _) ?_
    intro a ha hb
    rw [List.mem_singleton] at hb
    obtain ⟨p, hp, he⟩ := List.mem_map.mp ha
    have h1 := hlt p hp
    have h2 : p.2.atime = a := by simpa using he
    have h3 : a = c := by simpa using hb
    omega

/-! Equation lemmas for the LFU operations. -/

theorem lfu_get_eq_miss (s : LFUStrategy) (k : Key)
    (hl : alookup k s.entries = none) : s.get k = (none, s) := by
  unfold LFUStrategy.get
  rw [hl]

theorem lfu_get_eq_hit (s : LFUStrategy) (k : Key) (d : LFUData)
    (hl : alookup k s.entries = some d) :
    s.get k =
      (d.value, ⟨s.capacity,
        aupdate k (fun e => ⟨e.value, e.freq + 1, s.clock⟩) s.entries,
        heapOf (aupdate k (fun e => ⟨e.value, e.freq + 1, s.clock⟩) s.entries),
        s.clock + 1⟩) := by
  unfold LFUStrategy.get
  rw [hl]

theorem lfu_put_eq_update (s : LFUStrategy) (k : Key) (v : Val)
    (hl : (alookup k s.entries).isSome = true) :
    s.put k v =
      (none, ⟨s.capacity,
        aupdate k (fun e => ⟨v, e.freq + 1, s.clock⟩) s.entries,
        heapOf (aupdate k (fun e => ⟨v, e.freq + 1, s.clock⟩) s.entries),
        s.clock + 1⟩) := by
  unfold LFUStrategy.put
  rw [if_pos hl]

theorem lfu_put_eq_evict (s : LFUStrategy) (k : Key) (v : Val)
    (fq tm ek : Nat) (hl : ¬ (alookup k s.entries).isSome = true)
    (hfull : s.capacity ≤ s.entries.length)
    (hm : heapMin s.min_heap = some (fq, tm, ek)) :
    s.put k v =
      (some ek, ⟨s.capacity,
        aerase ek s.entries ++ [(k, ⟨v, 1, s.clock⟩)],
        heapOf (aerase ek s.entries ++ [(k, ⟨v, 1, s.clock⟩)]),
        s.clock + 1⟩) := by
  unfold LFUStrategy.put
  rw [if_neg hl, if_pos hfull, hm]

theorem lfu_put_eq_append (s : LFUStrategy) (k : Key) (v : Val)
    (hl : ¬ (alookup k s.entries).isSome = true)
    (hfull : ¬ s.capacity ≤ s.entries.length) :
    s.put k v =
      (none, ⟨s.capacity,
        s.entries ++ [(k, ⟨v, 1, s.clock⟩)],
        heapOf (s.entries ++ [(k, ⟨v, 1, s.clock⟩)]),
        s.clock + 1⟩) := by
  unfold LFUStrategy.put
  rw [if_neg hl, if_neg hfull]

/-- In a well-formed LFU state at (or above) capacity at least 1, the heap
minimum exists and its key is stored. -/
theorem LFUStrategy.heapMin_exists (s : LFUStrategy) (h : s.WF)
    (hne : s.entries ≠ []) :
    ∃ fq tm ek, heapMin s.min_heap = some (fq, tm, ek) ∧
      ∃ d, (ek, d) ∈ s.entries ∧ d.freq = fq ∧ d.atime = tm := by
  obtain ⟨hnd, hlen, hheap, hlt, hand⟩ := h
  have hheapne : s.min_heap ≠ [] := by
    rw [hheap]
    intro he
    apply hne
    cases hent : s.entries with
    | nil => rfl
    | cons p t =>
      rw [hent] at he
      simp [heapOf] at he
  obtain ⟨m, hm⟩ := heapMin_isSome s.min_heap hheapne
  obtain ⟨fq, tm, ek⟩ := m
  have hmem : (fq, tm, ek) ∈ heapOf s.entries := by
    rw [← hheap]
    exact (heapMin_spec _ _ hm).1
  obtain ⟨p, hp, hpe⟩ := (mem_heapOf _ _).mp hmem
  have h1 : p.1 = ek := congrArg (fun x => x.2.2) hpe
  have h2 : p.2.freq = fq := congrArg (fun x => x.1) hpe
  have h3 : p.2.atime = tm := congrArg (fun x => x.2.1) hpe
  refine ⟨fq, tm, ek, hm, p.2, ?_, h2, h3⟩
  rw [← h1]
  exact hp

theorem mem_keysOf_of_mem (p : Key × α) (l : List (Key × α)) (hp : p ∈ l) :
    p.1 ∈ keysOf l :=
  List.mem_map_of_mem Prod.fst hp

theorem lfu_get_wf (s : LFUStrategy) (k : Key) (h : s.WF) :
    (s.get k).2.WF ∧ (s.get k).2.capacity = s.capacity := by
  obtain ⟨hnd, hlen, hheap, hlt, hand⟩ := h
  cases hl : alookup k s.entries with
  | none =>
    rw [lfu_get_eq_miss s k hl]
    exact ⟨⟨hnd, hlen, hheap, hlt, hand⟩, rfl⟩
  | some d =>
    rw [lfu_get_eq_hit s k d hl]
    refine ⟨⟨?_, ?_, rfl, ?_, ?_⟩, rfl⟩
    · rw [keysOf_aupdate]
      exact hnd
    · rw [length_aupdate]
      exact hlen
    · exact atimes_aupdate_lt k _ s.entries s.clock (fun e => rfl) hlt
    · exact atimes_aupdate_nodup k _ s.entries s.clock (fun e => rfl) hlt hand

theorem lfu_put_wf (s : LFUStrategy) (k : Key) (v : Val) (h : s.WF)
    (hcap : 1 ≤ s.capacity) :
    (s.put k v).2.WF ∧ (s.put k v).2.capacity = s.capacity := by
  have hwf := h
  obtain ⟨hnd, hlen, hheap, hlt, hand⟩ := h
  by_cases hl : (alookup k s.entries).isSome = true
  · rw [lfu_put_eq_update s k v hl]
    refine ⟨⟨?_, ?_, rfl, ?_, ?_⟩, rfl⟩
    · rw [keysOf_aupdate]
      exact hnd
    · rw [length_aupdate]
      exact hlen
    · exact atimes_aupdate_lt k _ s.entries s.clock (fun e => rfl) hlt
    · exact atimes_aupdate_nodup k _ s.entries s.clock (fun e => rfl) hlt hand
  · have hk : k ∉ keysOf s.entries := by
      intro hm
      obtain ⟨w, hw⟩ := alookup_isSome_of_mem k s.entries hm
      simp [hw] at hl
    by_cases hfull : s.capacity ≤ s.entries.length
    · have hne : s.entries ≠ [] := by
        intro he
        rw [he] at hfull
        simp at hfull
        omega
      obtain ⟨fq, tm, ek, hm, d, hd, _, _⟩ := LFUStrategy.heapMin_exists s hwf hne
      have hekmem : ek ∈ keysOf s.entries := mem_keysOf_of_mem (ek, d) s.entries hd
      have hsub := aerase_sublist ek s.entries
      have hwfapp := lfu_append_wf (aerase ek s.entries) k v s.clock
        (hnd.sublist (keysOf_aerase_sublist ek s.entries))
        (fun hmm => hk ((keysOf_aerase_sublist ek s.entries).subset hmm))
        (fun p hp => hlt p (hsub.subset hp))
        (hand.sublist (hsub.map _))
      rw [lfu_put_eq_evict s k v fq tm ek hl hfull hm]
      refine ⟨⟨hwfapp.1, ?_, rfl, hwfapp.2.1, hwfapp.2.2⟩, rfl⟩
      have h1 := length_aerase_of_mem ek s.entries hekmem
      simp only [List.length_append, List.length_singleton]
      omega
    · have hwfapp := lfu_append_wf s.entries k v s.clock hnd hk hlt hand
      rw [lfu_put_eq_append s k v hl hfull]
      refine ⟨⟨hwfapp.1, ?_, rfl, hwfapp.2.1, hwfapp.2.2⟩, rfl⟩
      simp only [List.length_append, List.length_singleton]
      omega

theorem lfu_remove_wf (s : LFUStrategy) (k : Key) (h : s.WF) :
    (s.remove k).2.WF ∧ (s.remove k).2.capacity = s.capacity := by
  obtain ⟨hnd, hlen, hheap, hlt, hand⟩ := h
  unfold LFUStrategy.remove
  by_cases hl : (alookup k s.entries).isSome = true
  · rw [if_pos hl]
    have hsub := aerase_sublist k s.entries
    exact ⟨⟨hnd.sublist (keysOf_aerase_sublist k s.entries),
      le_trans hsub.length_le hlen, rfl,
      fun p hp => hlt p (hsub.subset hp), hand.sublist (hsub.map _)⟩, rfl⟩
  · rw [if_neg hl]
    exact ⟨⟨hnd, hlen, hheap, hlt, hand⟩, rfl⟩

/-! ### Cache-level preservation and totality -/

theorem strategy_get_wf (st : Strategy) (k : Key) (h : st.WF) :
    (st.get k).2.WF ∧ (st.get k).2.capacityOf = st.capacityOf := by
  cases st with
  | lru s => exact lru_get_wf s k h
  | lfu s => exact lfu_get_wf s k h

theorem strategy_put_wf (st : Strategy) (k : Key) (v : Val) (h : st.WF)
    (hcap : 1 ≤ st.capacityOf) :
    ∃ ev st', st.put k v = some (ev, st') ∧ st'.WF ∧ st'.capacityOf = st.capacityOf := by
  cases st with
  | lru s =>
    obtain ⟨ev, s', heq, hwf, hc⟩ := lru_put_wf s k v h hcap
    exact ⟨ev, .lru s', by simp [Strategy.put, heq], hwf, hc⟩
  | lfu s =>
    obtain ⟨hwf, hc⟩ := lfu_put_wf s k v h hcap
    exact ⟨(s.put k v).1, .lfu (s.put k v).2, by simp [Strategy.put], hwf, hc⟩

theorem strategy_remove_wf (st : Strategy) (k : Key) (h : st.WF) :
    (st.remove k).2.WF ∧ (st.remove k).2.capacityOf = st.capacityOf := by
  cases st with
  | lru s => exact lru_remove_wf s k h
  | lfu s => exact lfu_remove_wf s k h

theorem Cache.get_strategy (c : Cache) (k : Key) :
    (c.get k).2.strategy = (c.strategy.get k).2 ∧
    (c.get k).2.capacity = c.capacity := by
  unfold Cache.get
  by_cases h : (c.strategy.get k).1.isSome = true <;> simp [h]

theorem Cache.remove_strategy (c : Cache) (k : Key) :
    (c.remove k).2.strategy = (c.strategy.remove k).2 ∧
    (c.remove k).2.capacity = c.capacity := by
  unfold Cache.remove
  exact ⟨rfl, rfl⟩

theorem Cache.applyOp_wf (c : Cache) (op : Op) (h : c.WF)
    (hcap : 1 ≤ c.strategy.capacityOf) :
    ∃ c', c.applyOp op = some c' ∧ c'.WF ∧
      c'.strategy.capacityOf = c.strategy.capacityOf ∧ c'.capacity = c.capacity := by
  cases op with
  | put k v =>
    obtain ⟨ev, st', heq, hwf, hco⟩ := strategy_put_wf c.strategy k v h.1 hcap
    refine ⟨{ c with strategy := st' }, ?_, ⟨hwf, ?_⟩, hco, rfl⟩
    · simp [Cache.applyOp, Cache.put, heq]
    · rw [hco]
      exact h.2
  | get k =>
    obtain ⟨hst, hc⟩ := Cache.get_strategy c k
    obtain ⟨hwf, hco⟩ := strategy_get_wf c.strategy k h.1
    refine ⟨(c.get k).2, rfl, ⟨?_, ?_⟩, ?_, hc⟩
    · rw [hst]
      exact hwf
    · rw [hst, hco, hc]
      exact h.2
    · rw [hst]
      exact hco
  | remove k =>
    obtain ⟨hst, hc⟩ := Cache.remove_strategy c k
    obtain ⟨hwf, hco⟩ := strategy_remove_wf c.strategy k h.1
    refine ⟨(c.remove k).2, rfl, ⟨?_, ?_⟩, ?_, hc⟩
    · rw [hst]
      exact hwf
    · rw [hst, hco, hc]
      exact h.2
    · rw [hst]
      exact hco

theorem Cache.runOps_wf (ops : List Op) :
    ∀ c : Cache, c.WF → 1 ≤ c.strategy.capacityOf →
    ∃ c', c.runOps ops = some c' ∧ c'.WF ∧
      c'.strategy.capacityOf = c.strategy.capacityOf ∧ c'.capacity = c.capacity := by
  induction ops with
  | nil => exact fun c h _ => ⟨c, rfl, h, rfl, rfl⟩
  | cons op t ih =>
    intro c h hcap
    obtain ⟨c₁, h₁, hwf₁, hco₁, hc₁⟩ := Cache.applyOp_wf c op h hcap
    obtain ⟨c₂, h₂, hwf₂, hco₂, hc₂⟩ := ih c₁ hwf₁ (by rw [hco₁]; exact hcap)
    refine ⟨c₂, ?_, hwf₂, by rw [hco₂, hco₁], by rw [hc₂, hc₁]⟩
    simp [Cache.runOps, h₁, h₂]

/-! ### Claim C1 -/

/-- C1 (confirmed): for every capacity `c ≥ 1` (LRU or LFU, via the
factory) and every sequence of `put`/`get`/`remove` operations, every
operation completes, `size ≤ c` holds afterwards (hence after every prefix,
each prefix being such a sequence), and `size` equals the number of distinct
stored keys. -/
theorem C1_capacity_invariant (cap : Nat) (hcap : 1 ≤ cap) (init : Cache)
    (hinit : init = CacheFactory.create_lru_cache cap ∨
      init = CacheFactory.create_lfu_cache cap)
    (ops : List Op) :
    ∃ c', Cache.runOps init ops = some c' ∧
      c'.size ≤ cap ∧ c'.size = c'.keys.dedup.length := by
  have hwf : init.WF ∧ init.strategy.capacityOf = cap := by
    rcases hinit with rfl | rfl
    · exact ⟨⟨⟨List.nodup_nil, by simp [LRUStrategy.init]⟩, rfl⟩, rfl⟩
    · exact ⟨⟨⟨List.nodup_nil, by simp [LFUStrategy.init], rfl,
        fun p hp => absurd hp (List.not_mem_nil p), List.nodup_nil⟩, rfl⟩, rfl⟩
  obtain ⟨c', hrun, hwf', hco, _⟩ := Cache.runOps_wf ops init hwf.1
    (by rw [hwf.2]; exact hcap)
  refine ⟨c', hrun, ?_, ?_⟩
  · have h1 := Strategy.size_le_of_wf c'.strategy hwf'.1
    rw [hco, hwf.2] at h1
    exact h1
  · have h2 := Strategy.keys_nodup_of_wf c'.strategy hwf'.1
    rw [Cache.size, Cache.keys, Strategy.size_eq_keys_length,
      List.dedup_eq_self.mpr h2]

/-- Witness for C1 at a concrete capacity and operation sequence. -/
theorem C1_capacity_invariant_witness :
    ∃ c', Cache.runOps (CacheFactory.create_lru_cache 2)
      [Op.put 0 (some 1), Op.put 1 (some 2), Op.put 2 (some 3),
       Op.get 1, Op.remove 1, Op.put 3 none] = some c' ∧
      c'.size ≤ 2 ∧ c'.size = c'.keys.dedup.length :=
  C1_capacity_invariant 2 (by decide) _ (Or.inl rfl) _

/-! ### Timed LRU model (for claim C2)

`LRUTimed` is `LRUStrategy` instrumented with a last-touch timestamp per
entry and a clock: `get` and `put` stamp the touched key with the current
clock, which is exactly the informal notion of "recency" the spec uses.
Erasing the stamps (`LRUTimed.proj`) recovers the source model, so facts
about the source `LRUStrategy` transfer along the projection. -/

structure LRUTimed where
  capacity : Nat
  cache : List (Key × Val × Nat)
  clock : Nat
  deriving DecidableEq

def LRUTimed.init (capacity : Nat) : LRUTimed := ⟨capacity, [], 0⟩

def LRUTimed.get (s : LRUTimed) (k : Key) : Val × LRUTimed :=
  match alookup k s.cache with
  | none => (none, s)
  | some (v, _) =>
    (v, ⟨s.capacity, aerase k s.cache ++ [(k, (v, s.clock))], s.clock + 1⟩)

def LRUTimed.put (s : LRUTimed) (k : Key) (v : Val) :
    Option (Option Key × LRUTimed) :=
  if (alookup k s.cache).isSome then
    some (none, ⟨s.capacity, aerase k s.cache ++ [(k, (v, s.clock))], s.clock + 1⟩)
  else if s.capacity ≤ s.cache.length then
    match s.cache with
    | [] => none
    | (ek, _) :: rest =>
      some (some ek, ⟨s.capacity, rest ++ [(k, (v, s.clock))], s.clock + 1⟩)
  else
    some (none, ⟨s.capacity, s.cache ++ [(k, (v, s.clock))], s.clock + 1⟩)

def LRUTimed.remove (s : LRUTimed) (k : Key) : LRUTimed :=
  if (alookup k s.cache).isSome then ⟨s.capacity, aerase k s.cache, s.clock⟩ else s

def LRUTimed.applyOp (s : LRUTimed) : Op → Option LRUTimed
  | .put k v => (s.put k v).map Prod.snd
  | .get k => some (s.get k).2
  | .remove k => some (s.remove k)

def LRUTimed.runOps (s : LRUTimed) : List Op → Option LRUTimed
  | [] => some s
  | op :: t =>
    match s.applyOp op with
    | none => none
    | some s' => LRUTimed.runOps s' t

/-- The last-touch stamp of a key (default `0` when absent). -/
def LRUTimed.stampOf (s : LRUTimed) (k : Key) : Nat :=
  ((alookup k s.cache).map (fun p => p.2)).getD 0

/-- Erase the timestamps. -/
def unstamp (l : List (Key × Val × Nat)) : List (Key × Val) :=
  l.map (fun p => (p.1, p.2.1))

/-- Project a timed LRU state to the source model. -/
def LRUTimed.proj (s : LRUTimed) : LRUStrategy := ⟨s.capacity, unstamp s.cache⟩

@[simp] theorem unstamp_nil : unstamp [] = [] := rfl

@[simp] theorem unstamp_cons (p : Key × Val × Nat) (t : List (Key × Val × Nat)) :
    unstamp (p :: t) = (p.1, p.2.1) :: unstamp t := rfl

@[simp] theorem unstamp_append (l₁ l₂ : List (Key × Val × Nat)) :
    unstamp (l₁ ++ l₂) = unstamp l₁ ++ unstamp l₂ := by
  simp [unstamp]

@[simp] theorem length_unstamp (l : List (Key × Val × Nat)) :
    (unstamp l).length = l.length := by
  simp [unstamp]

theorem alookup_unstamp (k : Key) (l : List (Key × Val × Nat)) :
    alookup k (unstamp l) = (alookup k l).map Prod.fst := by
  induction l with
  | nil => simp
  | cons p t ih =>
    obtain ⟨k', v, tm⟩ := p
    by_cases h : k' = k
    · subst h
      simp
    · simp [h, ih]

theorem aerase_unstamp (k : Key) (l : List (Key × Val × Nat)) :
    aerase k (unstamp l) = unstamp (aerase k l) := by
  induction l with
  | nil => simp
  | cons p t ih =>
    obtain ⟨k', v, tm⟩ := p
    by_cases h : k' = k
    · subst h
      simp
    · simp [h, ih]

/-- Timed `get` projects to source `get`. -/
theorem LRUTimed.get_proj (s : LRUTimed) (k : Key) :
    (s.get k).1 = (s.proj.get k).1 ∧ (s.get k).2.proj = (s.proj.get k).2 := by
  unfold LRUTimed.get LRUStrategy.get LRUTimed.proj
  cases hl : alookup k s.cache with
  | none =>
    rw [alookup_unstamp, hl]
    exact ⟨rfl, rfl⟩
  | some p =>
    obtain ⟨v, tm⟩ := p
    rw [alookup_unstamp, hl]
    refine ⟨rfl, ?_⟩
    simp [aerase_unstamp]

/-- Timed `put` projects to source `put`. -/
theorem LRUTimed.put_proj (s : LRUTimed) (k : Key) (v : Val) :
    (s.put k v).map (fun r => (r.1, r.2.proj)) = s.proj.put k v := by
  unfold LRUTimed.put LRUStrategy.put LRUTimed.proj
  simp only [alookup_unstamp, length_unstamp, Option.isSome_map']
  by_cases hl : (alookup k s.cache).isSome = true
  · rw [if_pos hl, if_pos hl]
    simp [aerase_unstamp]
  · rw [if_neg hl, if_neg hl]
    by_cases hfull : s.capacity ≤ s.cache.length
    · rw [if_pos hfull, if_pos hfull]
      cases hc : s.cache with
      | nil => simp
      | cons p t =>
        obtain ⟨k', v', tm⟩ := p
        simp
    · rw [if_neg hfull, if_neg hfull]
      simp

/-- Timed `remove` projects to source `remove`. -/
theorem LRUTimed.remove_proj (s : LRUTimed) (k : Key) :
    (s.remove k).proj = (s.proj.remove k).2 := by
  unfold LRUTimed.remove LRUStrategy.remove LRUTimed.proj
  simp only [alookup_unstamp, Option.isSome_map']
  by_cases hl : (alookup k s.cache).isSome = true
  · rw [if_pos hl, if_pos hl]
    simp [aerase_unstamp]
  · rw [if_neg hl, if_neg hl]

/-- Invariant of the timed model: last-touch stamps strictly increase from
the least-recently-used end to the most-recently-used end, and are below the
clock. -/
def LRUTimed.Stamps (s : LRUTimed) : Prop :=
  s.cache.Pairwise (fun p q => p.2.2 < q.2.2) ∧ ∀ p ∈ s.cache, p.2.2 < s.clock

theorem stamps_append (l : List (Key × Val × Nat)) (k : Key) (v : Val) (c : Nat)
    (hpw : l.Pairwise (fun p q => p.2.2 < q.2.2)) (hlt : ∀ p ∈ l, p.2.2 < c) :
    (l ++ [(k, (v, c))]).Pairwise (fun p q => p.2.2 < q.2.2) ∧
    (∀ p ∈ l ++ [(k, (v, c))], p.2.2 < c + 1) := by
  constructor
  · rw [List.pairwise_append]
    refine ⟨hpw, List.pairwise_singleton _ _, ?_⟩
    intro a ha b hb
    rw [List.mem_singleton] at hb
    subst hb
    exact hlt a ha
  · intro p hp
    rcases List.mem_append.mp hp with h1 | h1
    · exact Nat.lt_succ_of_lt (hlt p h1)
    · rw [List.mem_singleton] at h1
      subst h1
      exact Nat.lt_succ_self c

theorem LRUTimed.applyOp_stamps (s : LRUTimed) (op : Op) (s' : LRUTimed)
    (h : s.Stamps) (heq : s.applyOp op = some s') : s'.Stamps := by
  obtain ⟨hpw, hlt⟩ := h
  cases op with
  | put k v =>
    simp only [LRUTimed.applyOp] at heq
    unfold LRUTimed.put at heq
    by_cases hl : (alookup k s.cache).isSome = true
    · rw [if_pos hl] at heq
      simp only [Option.map_some'] at heq
      cases heq
      have hsub := aerase_sublist k s.cache
      exact stamps_append _ k v s.clock (hpw.sublist hsub)
        (fun p hp => hlt p (hsub.subset hp))
    · rw [if_neg hl] at heq
      by_cases hfull : s.capacity ≤ s.cache.length
      · rw [if_pos hfull] at heq
        cases hc : s.cache with
        | nil =>
          rw [hc] at heq
          simp at heq
        | cons p t =>
          obtain ⟨ek, ev⟩ := p
          rw [hc] at heq
          simp only [Option.map_some'] at heq
          cases heq
          rw [hc] at hpw hlt
          exact stamps_append _ k v s.clock (List.pairwise_cons.mp hpw).2
            (fun p hp => hlt p (List.mem_cons_of_mem _ hp))
      · rw [if_neg hfull] at heq
        simp only [Option.map_some'] at heq
        cases heq
        exact stamps_append _ k v s.clock hpw hlt
  | get k =>
    simp only [LRUTimed.applyOp, Option.some_inj] at heq
    unfold LRUTimed.get at heq
    cases hl : alookup k s.cache with
    | none =>
      rw [hl] at heq
      cases heq
      exact ⟨hpw, hlt⟩
    | some p =>
      obtain ⟨v, tm⟩ := p
      rw [hl] at heq
      cases heq
      have hsub := aerase_sublist k s.cache
      exact stamps_append _ k v s.clock (hpw.sublist hsub)
        (fun p hp => hlt p (hsub.subset hp))
  | remove k =>
    simp only [LRUTimed.applyOp, Option.some_inj] at heq
    unfold LRUTimed.remove at heq
    by_cases hl : (alookup k s.cache).isSome = true
    · rw [if_pos hl] at heq
      cases heq
      have hsub := aerase_sublist k s.cache
      exact ⟨hpw.sublist hsub, fun p hp => hlt p (hsub.subset hp)⟩
    · rw [if_neg hl] at heq
      cases heq
      exact ⟨hpw, hlt⟩

theorem LRUTimed.runOps_stamps (ops : List Op) :
    ∀ s s', s.Stamps → LRUTimed.runOps s ops = some s' → s'.Stamps := by
  induction ops with
  | nil =>
    intro s s' h heq
    simp only [LRUTimed.runOps, Option.some_inj] at heq
    cases heq
    exact h
  | cons op t ih =>
    intro s s' h heq
    simp only [LRUTimed.runOps] at heq
    cases ha : s.applyOp op with
    | none =>
      rw [ha] at heq
      exact Option.noConfusion heq
    | some s₁ =>
      rw [ha] at heq
      exact ih s₁ s' (LRUTimed.applyOp_stamps s op s₁ h ha) heq

theorem LRUTimed.applyOp_cache (st : LRUTimed) (c : Cache)
    (h : c.strategy = .lru st.proj) (op : Op) :
    (st.applyOp op = none ∧ c.applyOp op = none) ∨
    (∃ st' c', st.applyOp op = some st' ∧ c.applyOp op = some c' ∧
      c'.strategy = .lru st'.proj) := by
  cases op with
  | put k v =>
    have hp := LRUTimed.put_proj st k v
    cases hput : st.put k v with
    | none =>
      left
      rw [hput] at hp
      simp only [Option.map_none'] at hp
      constructor
      · simp [LRUTimed.applyOp, hput]
      · simp [Cache.applyOp, Cache.put, h, Strategy.put, ← hp]
    | some r =>
      obtain ⟨ev, st'⟩ := r
      right
      rw [hput] at hp
      simp only [Option.map_some'] at hp
      refine ⟨st', { c with strategy := .lru st'.proj }, ?_, ?_, rfl⟩
      · simp [LRUTimed.applyOp, hput]
      · simp [Cache.applyOp, Cache.put, h, Strategy.put, ← hp]
  | get k =>
    have hg := LRUTimed.get_proj st k
    right
    refine ⟨(st.get k).2, (c.get k).2, rfl, rfl, ?_⟩
    obtain ⟨hst, _⟩ := Cache.get_strategy c k
    rw [hst, h]
    have h2 : (st.proj.get k).2 = (st.get k).2.proj := hg.2.symm
    simp [Strategy.get, h2]
  | remove k =>
    have hr := LRUTimed.remove_proj st k
    right
    refine ⟨st.remove k, (c.remove k).2, rfl, rfl, ?_⟩
    obtain ⟨hst, _⟩ := Cache.remove_strategy c k
    rw [hst, h]
    have h2 : (st.proj.remove k).2 = (st.remove k).proj := hr.symm
    simp [Strategy.remove, h2]

theorem LRUTimed.runOps_cache (ops : List Op) :
    ∀ (st : LRUTimed) (c : Cache), c.strategy = .lru st.proj →
    ∀ st', LRUTimed.runOps st ops = some st' →
    ∃ c', Cache.runOps c ops = some c' ∧ c'.strategy = .lru st'.proj := by
  induction ops with
  | nil =>
    intro st c h st' heq
    simp only [LRUTimed.runOps, Option.some_inj] at heq
    cases heq
    exact ⟨c, rfl, h⟩
  | cons op t ih =>
    intro st c h st' heq
    simp only [LRUTimed.runOps] at heq
    cases ha : st.applyOp op with
    | none =>
      rw [ha] at heq
      exact Option.noConfusion heq
    | some st₁ =>
      rw [ha] at heq
      rcases LRUTimed.applyOp_cache st c h op with ⟨h1, _⟩ | ⟨st₂, c₁, h1, h2, h3⟩
      · rw [ha] at h1
        exact Option.noConfusion h1
      · rw [ha] at h1
        cases h1
        obtain ⟨c', hc', hs'⟩ := ih st₁ c₁ h3 st' heq
        refine ⟨c', ?_, hs'⟩
        simp [Cache.runOps, h2, hc']

theorem LRUTimed.applyOp_capacity (s : LRUTimed) (op : Op) (s' : LRUTimed)
    (heq : s.applyOp op = some s') : s'.capacity = s.capacity := by
  cases op with
  | put k v =>
    simp only [LRUTimed.applyOp] at heq
    unfold LRUTimed.put at heq
    by_cases hl : (alookup k s.cache).isSome = true
    · rw [if_pos hl] at heq
      simp only [Option.map_some'] at heq
      cases heq
      rfl
    · rw [if_neg hl] at heq
      by_cases hfull : s.capacity ≤ s.cache.length
      · rw [if_pos hfull] at heq
        cases hc : s.cache with
        | nil =>
          rw [hc] at heq
          simp at heq
        | cons p t =>
          obtain ⟨ek, ev⟩ := p
          rw [hc] at heq
          simp only [Option.map_some'] at heq
          cases heq
          rfl
      · rw [if_neg hfull] at heq
        simp only [Option.map_some'] at heq
        cases heq
        rfl
  | get k =>
    simp only [LRUTimed.applyOp, Option.some_inj] at heq
    unfold LRUTimed.get at heq
    cases hl : alookup k s.cache with
    | none =>
      rw [hl] at heq
      cases heq
      rfl
    | some p =>
      obtain ⟨v, tm⟩ := p
      rw [hl] at heq
      cases heq
      rfl
  | remove k =>
    simp only [LRUTimed.applyOp, Option.some_inj] at heq
    unfold LRUTimed.remove at heq
    by_cases hl : (alookup k s.cache).isSome = true
    · rw [if_pos hl] at heq
      cases heq
      rfl
    · rw [if_neg hl] at heq
      cases heq
      rfl

theorem LRUTimed.runOps_capacity (ops : List Op) :
    ∀ s s', LRUTimed.runOps s ops = some s' → s'.capacity = s.capacity := by
  induction ops with
  | nil =>
    intro s s' heq
    simp only [LRUTimed.runOps, Option.some_inj] at heq
    cases heq
    rfl
  | cons op t ih =>
    intro s s' heq
    simp only [LRUTimed.runOps] at heq
    cases ha : s.applyOp op with
    | none =>
      rw [ha] at heq
      exact Option.noConfusion heq
    | some s₁ =>
      rw [ha] at heq
      rw [ih s₁ s' heq, LRUTimed.applyOp_capacity s op s₁ ha]

/-! ### Claim C2 -/

/-- C2 (confirmed): in an LRU cache reached by any operation sequence (the
timed model stamps each key at every `get`/`put` touch, which is the spec's
notion of recency), a `put` of a new key at full capacity evicts a stored
key whose last-touch stamp is strictly below that of every other stored key
— the least-recently-used key — and the source-model run (`Cache` with
`LRUStrategy`, related by erasing stamps) evicts exactly that key.  In
particular, inserting keys `0,1,2` (a,b,c) into a capacity-3 LRU cache,
then `get 0`, then `put 3` (d) evicts key `1` (b). -/
theorem C2_lru_eviction_order (cap : Nat) (hcap : 1 ≤ cap) (ops : List Op)
    (st : LRUTimed) (hrun : LRUTimed.runOps (LRUTimed.init cap) ops = some st)
    (k : Key) (v : Val) (hk : k ∉ keysOf st.cache) (hsize : st.cache.length = cap) :
    (∃ e st', st.put k v = some (some e, st') ∧ e ∈ keysOf st.cache ∧
      (∀ k' ∈ keysOf st.cache, k' ≠ e → st.stampOf e < st.stampOf k') ∧
      (∃ c', Cache.runOps (CacheFactory.create_lru_cache cap) ops = some c' ∧
        c'.strategy = .lru st.proj ∧
        (Cache.put c' k v).map Prod.fst = some (some e))) ∧
    (Cache.runOps (CacheFactory.create_lru_cache 3)
        [Op.put 0 (some 10), Op.put 1 (some 20), Op.put 2 (some 30),
         Op.get 0]).bind
      (fun c₀ => Option.map Prod.fst (c₀.put 3 (some 40))) = some (some 1) := by
  constructor
  · have hstamps : st.Stamps :=
      LRUTimed.runOps_stamps ops _ st ⟨List.Pairwise.nil, by simp [LRUTimed.init]⟩ hrun
    obtain ⟨e, ev, tail, hc⟩ : ∃ e ev tail, st.cache = (e, ev) :: tail := by
      cases hcc : st.cache with
      | nil =>
        rw [hcc] at hsize
        simp at hsize
        omega
      | cons p t =>
        obtain ⟨e, ev⟩ := p
        exact ⟨e, ev, t, rfl⟩
    have hl : alookup k st.cache = none := (alookup_eq_none k st.cache).mpr hk
    have hlns : ¬ (alookup k st.cache).isSome = true := by simp [hl]
    have hstcap : st.capacity = cap := LRUTimed.runOps_capacity ops _ st hrun
    have hput : st.put k v = some (some e,
        ⟨st.capacity, tail ++ [(k, (v, st.clock))], st.clock + 1⟩) := by
      unfold LRUTimed.put
      rw [if_neg hlns, if_pos (by simp [hstcap, hsize]), hc]
    refine ⟨e, _, hput, ?_, ?_, ?_⟩
    · rw [hc]
      exact List.mem_cons_self _ _
    · intro k' hk' hne
      have hse : st.stampOf e = ev.2 := by
        simp [LRUTimed.stampOf, hc]
      have hk't : k' ∈ keysOf tail := by
        rw [hc] at hk'
        simp only [keysOf_cons, List.mem_cons] at hk'
        exact hk'.resolve_left hne
      obtain ⟨p, hp⟩ := alookup_isSome_of_mem k' tail hk't
      have hmem : (k', p) ∈ tail := mem_of_alookup_eq_some k' tail p hp
      have hsk' : st.stampOf k' = p.2 := by
        simp [LRUTimed.stampOf, hc, alookup_cons_ne k' e _ _ (Ne.symm hne), hp]
      have hpw := hstamps.1
      rw [hc, List.pairwise_cons] at hpw
      rw [hse, hsk']
      exact hpw.1 (k', p) hmem
    · have hinit : (CacheFactory.create_lru_cache cap).strategy =
          .lru (LRUTimed.init cap).proj := rfl
      obtain ⟨c', hc', hs'⟩ :=
        LRUTimed.runOps_cache ops (LRUTimed.init cap)
          (CacheFactory.create_lru_cache cap) hinit st hrun
      refine ⟨c', hc', hs', ?_⟩
      have hpp := LRUTimed.put_proj st k v
      rw [hput] at hpp
      simp only [Option.map_some'] at hpp
      unfold Cache.put
      rw [hs']
      show (((Strategy.lru st.proj).put k v).map
        (fun r => (r.1, { c' with strategy := r.2 }))).map Prod.fst = _
      simp [Strategy.put, ← hpp]
  · decide

/-- Witness for C2: the claim's own scenario discharges the hypotheses
(`0,1,2` inserted, `0` touched, capacity 3, new key 3). -/
theorem C2_lru_eviction_order_witness :
    (∃ e st', (LRUTimed.mk 3 [(1, (some 20, 1)), (2, (some 30, 2)), (0, (some 10, 3))] 4).put
        3 (some 40) = some (some e, st') ∧
      e ∈ keysOf [(1, ((some 20 : Val), 1)), (2, (some 30, 2)), (0, (some 10, 3))] ∧
      (∀ k' ∈ keysOf [(1, ((some 20 : Val), 1)), (2, (some 30, 2)), (0, (some 10, 3))],
        k' ≠ e →
        (LRUTimed.mk 3 [(1, (some 20, 1)), (2, (some 30, 2)), (0, (some 10, 3))] 4).stampOf e <
        (LRUTimed.mk 3 [(1, (some 20, 1)), (2, (some 30, 2)), (0, (some 10, 3))] 4).stampOf k') ∧
      (∃ c', Cache.runOps (CacheFactory.create_lru_cache 3)
          [Op.put 0 (some 10), Op.put 1 (some 20), Op.put 2 (some 30), Op.get 0] = some c' ∧
        c'.strategy = .lru (LRUTimed.mk 3
          [(1, (some 20, 1)), (2, (some 30, 2)), (0, (some 10, 3))] 4).proj ∧
        (Cache.put c' 3 (some 40)).map Prod.fst = some (some e))) ∧
    (Cache.runOps (CacheFactory.create_lru_cache 3)
        [Op.put 0 (some 10), Op.put 1 (some 20), Op.put 2 (some 30),
         Op.get 0]).bind
      (fun c₀ => Option.map Prod.fst (c₀.put 3 (some 40))) = some (some 1) :=
  C2_lru_eviction_order 3 (by decide)
    [Op.put 0 (some 10), Op.put 1 (some 20), Op.put 2 (some 30), Op.get 0]
    (LRUTimed.mk 3 [(1, (some 20, 1)), (2, (some 30, 2)), (0, (some 10, 3))] 4)
    (by decide) 3 (some 40) (by decide) (by decide)

/-! ### Claim C3 -/

/-- C3 (confirmed): in an LFU cache reached by any operation sequence, a
`put` of a new key at full capacity evicts a stored key whose
`(frequency, last_access)` pair is lexicographically strictly smaller than
that of every other stored key (lowest frequency first, oldest access time
breaking ties).  In particular, inserting `0,1,2` (x,y,z) into a capacity-3
LFU cache, accessing `0` twice and `1` once (`2` untouched), then `put 3`
(w) evicts key `2` (z). -/
theorem C3_lfu_eviction_tiebreak (cap : Nat) (hcap : 1 ≤ cap) (ops : List Op)
    (c : Cache) (hrun : Cache.runOps (CacheFactory.create_lfu_cache cap) ops = some c)
    (fs : LFUStrategy) (hstrat : c.strategy = .lfu fs)
    (k : Key) (v : Val) (hk : k ∉ keysOf fs.entries)
    (hsize : fs.entries.length = cap) :
    (∃ ek d c', Cache.put c k v = some (some ek, c') ∧ (ek, d) ∈ fs.entries ∧
      ∀ p ∈ fs.entries, p.1 ≠ ek →
        d.freq < p.2.freq ∨ (d.freq = p.2.freq ∧ d.atime < p.2.atime)) ∧
    (Cache.runOps (CacheFactory.create_lfu_cache 3)
        [Op.put 0 (some 10), Op.put 1 (some 20), Op.put 2 (some 30),
         Op.get 0, Op.get 0, Op.get 1]).bind
      (fun c₀ => Option.map Prod.fst (c₀.put 3 (some 40))) = some (some 2) := by
  constructor
  · have hinitwf : (CacheFactory.create_lfu_cache cap).WF :=
      ⟨⟨List.nodup_nil, by simp [LFUStrategy.init], rfl,
        fun p hp => absurd hp (List.not_mem_nil p), List.nodup_nil⟩, rfl⟩
    obtain ⟨c'', hrun'', hwf'', hco'', _⟩ :=
      Cache.runOps_wf ops (CacheFactory.create_lfu_cache cap) hinitwf hcap
    rw [hrun] at hrun''
    cases hrun''
    have hfswf : fs.WF := by
      have := hwf''.1
      rw [hstrat] at this
      exact this
    have hfscap : fs.capacity = cap := by
      have := hco''
      rw [hstrat] at this
      exact this
    have hne : fs.entries ≠ [] := by
      intro he
      rw [he] at hsize
      simp at hsize
      omega
    obtain ⟨fq, tm, ek, hm, d, hd, hdf, hda⟩ := LFUStrategy.heapMin_exists fs hfswf hne
    have hl : ¬ (alookup k fs.entries).isSome = true := by
      rw [(alookup_eq_none k fs.entries).mpr hk]
      simp
    have hfull : fs.capacity ≤ fs.entries.length := by
      rw [hfscap, hsize]
    have hput := lfu_put_eq_evict fs k v fq tm ek hl hfull hm
    refine ⟨ek, d, { c with strategy := .lfu (fs.put k v).2 }, ?_, hd, ?_⟩
    · unfold Cache.put
      rw [hstrat]
      show ((Strategy.lfu fs).put k v).map (fun r => (r.1, { c with strategy := r.2 }))
        = _
      simp only [Strategy.put, Option.map_some']
      rw [hput]
    · intro p hp hne'
      have hmemheap : (p.2.freq, p.2.atime, p.1) ∈ fs.min_heap := by
        rw [hfswf.2.2.1]
        exact (mem_heapOf _ _).mpr ⟨p, hp, rfl⟩
      have htrip := (heapMin_spec _ _ hm).2 _ hmemheap
      rw [hle_iff] at htrip
      have hand := hfswf.2.2.2.2
      have htrip' : fq < p.2.freq ∨
          (fq = p.2.freq ∧ (tm < p.2.atime ∨ (tm = p.2.atime ∧ ek ≤ p.1))) := by
        simpa using htrip
      rcases htrip' with h1 | ⟨h1, h2 | ⟨h2, h3⟩⟩
      · left
        rw [hdf]
        exact h1
      · right
        rw [hdf, hda]
        exact ⟨h1.symm.symm, h2⟩
      · exfalso
        have hinj := List.inj_on_of_nodup_map hand
        have heqd : (ek, d) = p := by
          refine hinj hd hp ?_
          show d.atime = p.2.atime
          rw [hda, h2]
        apply hne'
        rw [← heqd]
  · decide

/-- Witness for C3: the claim's own scenario discharges the hypotheses (the
state is the one reached by `put 0; put 1; put 2; get 0; get 0; get 1`). -/
theorem C3_lfu_eviction_tiebreak_witness :
    (∃ ek d c', Cache.put
        ⟨3, .lfu ⟨3, [(0, ⟨some 10, 3, 4⟩), (1, ⟨some 20, 2, 5⟩), (2, ⟨some 30, 1, 2⟩)],
          [(3, 4, 0), (2, 5, 1), (1, 2, 2)], 6⟩, 3, 0⟩ 3 (some 40) = some (some ek, c') ∧
      (ek, d) ∈ [(0, (⟨some 10, 3, 4⟩ : LFUData)), (1, ⟨some 20, 2, 5⟩), (2, ⟨some 30, 1, 2⟩)] ∧
      ∀ p ∈ [(0, (⟨some 10, 3, 4⟩ : LFUData)), (1, ⟨some 20, 2, 5⟩), (2, ⟨some 30, 1, 2⟩)],
        p.1 ≠ ek →
        d.freq < p.2.freq ∨ (d.freq = p.2.freq ∧ d.atime < p.2.atime)) ∧
    (Cache.runOps (CacheFactory.create_lfu_cache 3)
        [Op.put 0 (some 10), Op.put 1 (some 20), Op.put 2 (some 30),
         Op.get 0, Op.get 0, Op.get 1]).bind
      (fun c₀ => Option.map Prod.fst (c₀.put 3 (some 40))) = some (some 2) :=
  C3_lfu_eviction_tiebreak 3 (by decide)
    [Op.put 0 (some 10), Op.put 1 (some 20), Op.put 2 (some 30),
     Op.get 0, Op.get 0, Op.get 1]
    ⟨3, .lfu ⟨3, [(0, ⟨some 10, 3, 4⟩), (1, ⟨some 20, 2, 5⟩), (2, ⟨some 30, 1, 2⟩)],
      [(3, 4, 0), (2, 5, 1), (1, 2, 2)], 6⟩, 3, 0⟩
    (by decide)
    ⟨3, [(0, ⟨some 10, 3, 4⟩), (1, ⟨some 20, 2, 5⟩), (2, ⟨some 30, 1, 2⟩)],
      [(3, 4, 0), (2, 5, 1), (1, 2, 2)], 6⟩
    rfl 3 (some 40) (by decide) (by decide)

/-! ### Further helper and equation lemmas -/

theorem alookup_aerase_ne (k k' : Key) (l : List (Key × α)) (hne : k' ≠ k) :
    alookup k' (aerase k l) = alookup k' l := by
  induction l with
  | nil => simp
  | cons p t ih =>
    obtain ⟨k₀, v⟩ := p
    by_cases h : k₀ = k
    · subst h
      rw [aerase_cons_self, alookup_cons_ne _ _ _ _ (fun he => hne he.symm)]
    · by_cases h' : k₀ = k'
      · subst h'
        rw [aerase_cons_ne _ _ _ _ h, alookup_cons_self, alookup_cons_self]
      · rw [aerase_cons_ne _ _ _ _ h, alookup_cons_ne _ _ _ _ h',
          alookup_cons_ne _ _ _ _ h', ih]

theorem lru_get_eq_miss (s : LRUStrategy) (k : Key)
    (hl : alookup k s.cache = none) : s.get k = (none, s) := by
  unfold LRUStrategy.get
  rw [hl]

theorem lru_get_eq_hit (s : LRUStrategy) (k : Key) (v : Val)
    (hl : alookup k s.cache = some v) :
    s.get k = (v, ⟨s.capacity, aerase k s.cache ++ [(k, v)]⟩) := by
  unfold LRUStrategy.get
  rw [hl]

theorem lru_put_eq_update (s : LRUStrategy) (k : Key) (v : Val)
    (hl : (alookup k s.cache).isSome = true) :
    s.put k v = some (none, ⟨s.capacity, aerase k s.cache ++ [(k, v)]⟩) := by
  unfold LRUStrategy.put
  rw [if_pos hl]

theorem lru_put_eq_append (s : LRUStrategy) (k : Key) (v : Val)
    (hl : ¬ (alookup k s.cache).isSome = true)
    (hfull : ¬ s.capacity ≤ s.cache.length) :
    s.put k v = some (none, ⟨s.capacity, s.cache ++ [(k, v)]⟩) := by
  unfold LRUStrategy.put
  rw [if_neg hl, if_neg hfull]

theorem lru_put_eq_evict (s : LRUStrategy) (k : Key) (v : Val)
    (ek : Key) (ev : Val) (rest : List (Key × Val))
    (hl : ¬ (alookup k s.cache).isSome = true)
    (hfull : s.capacity ≤ s.cache.length)
    (hc : s.cache = (ek, ev) :: rest) :
    s.put k v = some (some ek, ⟨s.capacity, rest ++ [(k, v)]⟩) := by
  unfold LRUStrategy.put
  rw [if_neg hl, if_pos hfull, hc]

/-- `Cache.get` returns exactly what the strategy returns. -/
theorem Cache.get_fst (c : Cache) (k : Key) : (c.get k).1 = (c.strategy.get k).1 := by
  unfold Cache.get
  by_cases h : (c.strategy.get k).1.isSome = true <;> simp [h]

/-- Hit/miss counter behaviour of `Cache.get`, keyed on the value the
strategy returns (`None` counts as a miss). -/
theorem Cache.get_counts (c : Cache) (k : Key) :
    ((c.strategy.get k).1.isSome = true →
      (c.get k).2.hits = c.hits + 1 ∧ (c.get k).2.misses = c.misses) ∧
    ((c.strategy.get k).1.isSome = false →
      (c.get k).2.hits = c.hits ∧ (c.get k).2.misses = c.misses + 1) := by
  unfold Cache.get
  by_cases h : (c.strategy.get k).1.isSome = true <;> simp [h]

/-- The value a strategy `get` returns is the join of the stored value:
`none` for an absent key and the stored Python value otherwise. -/
theorem Strategy.get_fst_eq_find (st : Strategy) (k : Key) :
    (st.get k).1 = (st.find? k).getD none := by
  cases st with
  | lru s =>
    show (s.get k).1 = (alookup k s.cache).getD none
    cases hl : alookup k s.cache with
    | none => rw [lru_get_eq_miss s k hl]; rfl
    | some v => rw [lru_get_eq_hit s k v hl]; rfl
  | lfu s =>
    show (s.get k).1 = ((alookup k s.entries).map LFUData.value).getD none
    cases hl : alookup k s.entries with
    | none => rw [lfu_get_eq_miss s k hl]; rfl
    | some d => rw [lfu_get_eq_hit s k d hl]; rfl

/-! ### Claim C7 -/

/-- C7 (confirmed): overwriting a key already present (any policy, any
fill level, given a well-formed state) replaces the value — a subsequent
`get` returns the new value and the entry stores it — returns no evicted
key, and leaves the set of present keys unchanged. -/
theorem C7_idempotent_overwrite (c : Cache) (hwf : c.WF) (k : Key) (v2 : Val)
    (hk : k ∈ c.keys) :
    ∃ c', Cache.put c k v2 = some (none, c') ∧
      (Cache.get c' k).1 = v2 ∧
      c'.find? k = some v2 ∧
      (∀ k', k' ∈ c'.keys ↔ k' ∈ c.keys) := by
  cases hst : c.strategy with
  | lru s =>
    have hks : k ∈ keysOf s.cache := by
      rw [Cache.keys, hst] at hk
      exact hk
    obtain ⟨v₀, hv₀⟩ := alookup_isSome_of_mem k s.cache hks
    have hnd : (keysOf s.cache).Nodup := by
      have := hwf.1
      rw [hst] at this
      exact this.1
    have hput := lru_put_eq_update s k v2 (by simp [hv₀])
    have hfind : alookup k (aerase k s.cache ++ [(k, v2)]) = some v2 :=
      alookup_append_self k _ v2 (not_mem_keysOf_aerase k s.cache hnd)
    refine ⟨{ c with strategy := .lru ⟨s.capacity, aerase k s.cache ++ [(k, v2)]⟩ }, ?_, ?_, ?_, ?_⟩
    · unfold Cache.put
      rw [hst]
      show ((Strategy.lru s).put k v2).map (fun r => (r.1, { c with strategy := r.2 })) = _
      simp only [Strategy.put, hput, Option.map_some']
    · rw [Cache.get_fst, Strategy.get_fst_eq_find]
      show ((alookup k (aerase k s.cache ++ [(k, v2)])).getD none) = v2
      rw [hfind]
      rfl
    · show alookup k (aerase k s.cache ++ [(k, v2)]) = some v2
      exact hfind
    · intro k'
      show k' ∈ keysOf (aerase k s.cache ++ [(k, v2)]) ↔ k' ∈ c.keys
      rw [Cache.keys, hst]
      show _ ↔ k' ∈ keysOf s.cache
      by_cases hkk : k' = k
      · subst hkk
        simp [hks]
      · rw [keysOf_append]
        simp only [List.mem_append]
        rw [mem_keysOf_aerase_of_ne k k' s.cache hkk]
        simp [hkk]
  | lfu s =>
    have hks : k ∈ keysOf s.entries := by
      rw [Cache.keys, hst] at hk
      exact hk
    obtain ⟨d₀, hd₀⟩ := alookup_isSome_of_mem k s.entries hks
    have hput := lfu_put_eq_update s k v2 (by simp [hd₀])
    have hfind : (alookup k (aupdate k (fun e => ⟨v2, e.freq + 1, s.clock⟩) s.entries)).map
        LFUData.value = some v2 := by
      rw [alookup_aupdate_self, hd₀]
      rfl
    refine ⟨{ c with strategy := .lfu (s.put k v2).2 }, ?_, ?_, ?_, ?_⟩
    · unfold Cache.put
      rw [hst]
      show ((Strategy.lfu s).put k v2).map (fun r => (r.1, { c with strategy := r.2 })) = _
      simp only [Strategy.put, Option.map_some']
      rw [hput]
    · rw [Cache.get_fst, Strategy.get_fst_eq_find]
      show ((Strategy.lfu (s.put k v2).2).find? k).getD none = v2
      rw [hput]
      show ((alookup k (aupdate k (fun e => ⟨v2, e.freq + 1, s.clock⟩) s.entries)).map
        LFUData.value).getD none = v2
      rw [hfind]
      rfl
    · show (Strategy.lfu (s.put k v2).2).find? k = some v2
      rw [hput]
      exact hfind
    · intro k'
      show k' ∈ (Strategy.lfu (s.put k v2).2).keys ↔ k' ∈ c.keys
      rw [Cache.keys, hst, hput]
      show k' ∈ keysOf (aupdate k _ s.entries) ↔ k' ∈ keysOf s.entries
      rw [keysOf_aupdate]

/-- Witness for C7 on a concrete full capacity-2 LRU cache. -/
theorem C7_idempotent_overwrite_witness :
    ∃ c', Cache.put ⟨2, .lru ⟨2, [(0, some 1), (5, some 7)]⟩, 0, 0⟩ 5 (some 9) =
        some (none, c') ∧
      (Cache.get c' 5).1 = some 9 ∧
      c'.find? 5 = some (some 9) ∧
      (∀ k', k' ∈ c'.keys ↔ k' ∈ (Cache.mk 2 (.lru ⟨2, [(0, some 1), (5, some 7)]⟩) 0 0).keys) :=
  C7_idempotent_overwrite ⟨2, .lru ⟨2, [(0, some 1), (5, some 7)]⟩, 0, 0⟩
    (by constructor
        · show LRUStrategy.WF ⟨2, [(0, some 1), (5, some 7)]⟩
          constructor
          · decide
          · decide
        · rfl)
    5 (some 9) (by decide)

/-! ### Claim C8 -/

/-- C8 counterexample: after `put 0 None`, key `0` is present in the cache,
yet `get 0` returns `None` and increments the *miss* counter — refuting
"returns Some(value) and increments hits if and only if k is present". -/
theorem C8_counterexample :
    ∃ c₁, Cache.put (CacheFactory.create_lru_cache 2) 0 none = some (none, c₁) ∧
      0 ∈ c₁.keys ∧
      (Cache.get c₁ 0).1 = none ∧
      (Cache.get c₁ 0).2.hits = 0 ∧ (Cache.get c₁ 0).2.misses = 1 := by
  refine ⟨⟨2, .lru ⟨2, [(0, none)]⟩, 0, 0⟩, ?_, ?_, ?_, ?_, ?_⟩ <;> decide

/-- C8 (amended): `get k` returns the stored value and increments `hits`
iff `k` is stored with a non-`None` value; otherwise — `k` absent, or
present but storing `None` — it returns `None` and increments `misses`.
An absent key is a plain `None` result of the total `get`, never an
error. -/
theorem C8_hit_miss_counting (c : Cache) (k : Key) :
    (∀ n : Nat, c.find? k = some (some n) →
      (c.get k).1 = some n ∧
      (c.get k).2.hits = c.hits + 1 ∧ (c.get k).2.misses = c.misses) ∧
    ((c.find? k = none ∨ c.find? k = some none) →
      (c.get k).1 = none ∧
      (c.get k).2.hits = c.hits ∧ (c.get k).2.misses = c.misses + 1) := by
  have hfst : (c.get k).1 = (c.find? k).getD none := by
    rw [Cache.get_fst, Strategy.get_fst_eq_find]
    rfl
  have hcounts := Cache.get_counts c k
  have hfst' : (c.strategy.get k).1 = (c.find? k).getD none := by
    rw [Strategy.get_fst_eq_find]
    rfl
  constructor
  · intro n hn
    have h1 : (c.get k).1 = some n := by rw [hfst, hn]; rfl
    have h2 : (c.strategy.get k).1.isSome = true := by rw [hfst', hn]; rfl
    exact ⟨h1, hcounts.1 h2⟩
  · intro hn
    have hgd : (c.find? k).getD none = none := by
      rcases hn with hn | hn <;> rw [hn] <;> rfl
    have h1 : (c.get k).1 = none := by rw [hfst, hgd]
    have h2 : (c.strategy.get k).1.isSome = false := by rw [hfst', hgd]; rfl
    exact ⟨h1, hcounts.2 h2⟩

/-- Witness for C8: a stored non-`None` value counts a hit; a stored
`None` counts a miss. -/
theorem C8_hit_miss_counting_witness :
    ((Cache.get ⟨2, .lru ⟨2, [(0, some 7)]⟩, 0, 0⟩ 0).1 = some 7 ∧
      (Cache.get ⟨2, .lru ⟨2, [(0, some 7)]⟩, 0, 0⟩ 0).2.hits = 0 + 1 ∧
      (Cache.get ⟨2, .lru ⟨2, [(0, some 7)]⟩, 0, 0⟩ 0).2.misses = 0) ∧
    ((Cache.get ⟨2, .lru ⟨2, [(1, none)]⟩, 0, 0⟩ 1).1 = none ∧
      (Cache.get ⟨2, .lru ⟨2, [(1, none)]⟩, 0, 0⟩ 1).2.hits = 0 ∧
      (Cache.get ⟨2, .lru ⟨2, [(1, none)]⟩, 0, 0⟩ 1).2.misses = 0 + 1) :=
  ⟨(C8_hit_miss_counting ⟨2, .lru ⟨2, [(0, some 7)]⟩, 0, 0⟩ 0).1 7 (by decide),
   (C8_hit_miss_counting ⟨2, .lru ⟨2, [(1, none)]⟩, 0, 0⟩ 1).2 (Or.inr (by decide))⟩

/-! ### Claim C9 -/

/-- C9 (confirmed): `get_stats` reports the current hits, misses, size and
capacity, and `hit_rate = hits / (hits + misses)` (exact division over `ℚ`)
when any operation has been recorded, and `0` when `hits = misses = 0` —
no division by zero occurs. -/
theorem C9_hit_rate_arithmetic (c : Cache) :
    (c.get_stats).hits = c.hits ∧ (c.get_stats).misses = c.misses ∧
    (c.get_stats).size = c.size ∧ (c.get_stats).capacity = c.capacity ∧
    (c.get_stats).hit_rate =
      (if c.hits = 0 ∧ c.misses = 0 then 0
       else (c.hits : ℚ) / ((c.hits : ℚ) + (c.misses : ℚ))) := by
  refine ⟨rfl, rfl, rfl, rfl, ?_⟩
  show (if 0 < c.hits + c.misses then (c.hits : ℚ) / ((c.hits + c.misses : Nat) : ℚ) else 0) = _
  by_cases h : 0 < c.hits + c.misses
  · rw [if_pos h, if_neg (by omega)]
    push_cast
    rfl
  · rw [if_neg h, if_pos (by omega)]

/-! ### Claim C6 -/

/-- C6 counterexample: constructing a cache with capacity 0 does *not*
fail — both factory methods return an ordinary empty cache of capacity 0
(there is no `InvalidConfiguration` and no validation anywhere in the
code).  What does fail is the first `put` on the capacity-0 LRU cache,
with a `KeyError` from `popitem` on an empty dict (modelled as `none`). -/
theorem C6_counterexample :
    (CacheFactory.create_lru_cache 0).capacity = 0 ∧
    (CacheFactory.create_lru_cache 0).size = 0 ∧
    (CacheFactory.create_lfu_cache 0).capacity = 0 ∧
    (CacheFactory.create_lfu_cache 0).size = 0 ∧
    Cache.put (CacheFactory.create_lru_cache 0) 5 (some 1) = none := by
  refine ⟨rfl, rfl, rfl, rfl, ?_⟩
  decide

/-- C6 (amended): the factory performs no capacity validation at all:
construction with *any* capacity, including 0, succeeds and returns an
empty cache carrying that capacity with zeroed statistics; no
`InvalidConfiguration` error exists in the code. -/
theorem C6_no_capacity_validation (cap : Nat) :
    (CacheFactory.create_lru_cache cap).capacity = cap ∧
    (CacheFactory.create_lru_cache cap).size = 0 ∧
    (CacheFactory.create_lru_cache cap).hits = 0 ∧
    (CacheFactory.create_lru_cache cap).misses = 0 ∧
    (CacheFactory.create_lfu_cache cap).capacity = cap ∧
    (CacheFactory.create_lfu_cache cap).size = 0 ∧
    (CacheFactory.create_lfu_cache cap).hits = 0 ∧
    (CacheFactory.create_lfu_cache cap).misses = 0 :=
  ⟨rfl, rfl, rfl, rfl, rfl, rfl, rfl, rfl⟩

/-! ### Cache-level `get`/`put` specifications (for the stampede claims) -/

theorem Cache.mem_keys_of_find (c : Cache) (k : Key) (v : Val)
    (h : c.find? k = some v) : k ∈ c.keys := by
  cases hst : c.strategy with
  | lru s =>
    rw [Cache.find?, hst] at h
    rw [Cache.keys, hst]
    exact mem_keysOf_of_mem (k, v) s.cache (mem_of_alookup_eq_some k s.cache v h)
  | lfu s =>
    rw [Cache.find?, hst] at h
    rw [Cache.keys, hst]
    show k ∈ keysOf s.entries
    have h' : (alookup k s.entries).map LFUData.value = some v := h
    cases hl : alookup k s.entries with
    | none =>
      rw [hl] at h'
      exact Option.noConfusion h'
    | some d =>
      exact mem_keysOf_of_mem (k, d) s.entries (mem_of_alookup_eq_some k s.entries d hl)

/-- A `get` of an absent key changes nothing but the miss counter. -/
theorem Cache.get_absent (c : Cache) (k : Key) (h : c.find? k = none) :
    c.get k = (none, { c with misses := c.misses + 1 }) := by
  have hst : c.strategy.get k = (none, c.strategy) := by
    cases hstc : c.strategy with
    | lru s =>
      have hl : alookup k s.cache = none := by
        rw [Cache.find?, hstc] at h
        exact h
      show ((s.get k).1, Strategy.lru (s.get k).2) = (none, Strategy.lru s)
      rw [lru_get_eq_miss s k hl]
    | lfu s =>
      have hl : alookup k s.entries = none := by
        rw [Cache.find?, hstc] at h
        cases hl' : alookup k s.entries with
        | none => rfl
        | some d =>
          have : (Strategy.lfu s).find? k = some d.value := by
            show (alookup k s.entries).map LFUData.value = some d.value
            rw [hl']
            rfl
          rw [this] at h
          exact Option.noConfusion h
      show ((s.get k).1, Strategy.lfu (s.get k).2) = (none, Strategy.lfu s)
      rw [lfu_get_eq_miss s k hl]
  unfold Cache.get
  rw [hst]
  rfl

/-- A strategy `get` never changes stored values (given distinct keys). -/
theorem Strategy.get_find (st : Strategy) (k k' : Key) (hnd : st.keys.Nodup) :
    (st.get k).2.find? k' = st.find? k' := by
  cases st with
  | lru s =>
    cases hl : alookup k s.cache with
    | none =>
      show ((Strategy.lru (s.get k).2)).find? k' = _
      rw [lru_get_eq_miss s k hl]
    | some v =>
      show ((Strategy.lru (s.get k).2)).find? k' = alookup k' s.cache
      rw [lru_get_eq_hit s k v hl]
      show alookup k' (aerase k s.cache ++ [(k, v)]) = alookup k' s.cache
      by_cases hkk : k' = k
      · subst hkk
        rw [alookup_append_self k' _ v (not_mem_keysOf_aerase k' s.cache hnd), hl]
      · rw [alookup_append_left k' _ (k, v) (fun he => hkk he.symm),
          alookup_aerase_ne k k' s.cache hkk]
  | lfu s =>
    cases hl : alookup k s.entries with
    | none =>
      show ((Strategy.lfu (s.get k).2)).find? k' = _
      rw [lfu_get_eq_miss s k hl]
    | some d =>
      show ((Strategy.lfu (s.get k).2)).find? k' = (alookup k' s.entries).map LFUData.value
      rw [lfu_get_eq_hit s k d hl]
      show (alookup k' (aupdate k _ s.entries)).map LFUData.value = _
      by_cases hkk : k' = k
      · subst hkk
        rw [alookup_aupdate_self, hl]
        rfl
      · rw [alookup_aupdate_ne k k' _ s.entries hkk]

/-- Specification of `Cache.get` when the key is absent or stores `None`:
the result is `None`, only the miss counter changes observably, stored
values are untouched, and well-formedness is preserved. -/
theorem Cache.get_miss_spec (c : Cache) (k : Key) (hwf : c.WF)
    (h : c.find? k = none ∨ c.find? k = some none) :
    (c.get k).1 = none ∧ (c.get k).2.WF ∧
    (∀ k', (c.get k).2.find? k' = c.find? k') ∧
    (c.get k).2.misses = c.misses + 1 ∧ (c.get k).2.hits = c.hits ∧
    (c.get k).2.strategy.capacityOf = c.strategy.capacityOf ∧
    (c.get k).2.capacity = c.capacity := by
  have hgd : (c.find? k).getD none = none := by
    rcases h with h | h <;> rw [h] <;> rfl
  have hfst : (c.get k).1 = none := by
    rw [Cache.get_fst, Strategy.get_fst_eq_find]
    exact hgd
  have hsome : (c.strategy.get k).1.isSome = false := by
    rw [Strategy.get_fst_eq_find]
    show ((c.find? k).getD none).isSome = false
    rw [hgd]
    rfl
  obtain ⟨hst, hcapc⟩ := Cache.get_strategy c k
  obtain ⟨hwf', hco⟩ := strategy_get_wf c.strategy k hwf.1
  have hcnt := (Cache.get_counts c k).2 hsome
  refine ⟨hfst, ⟨?_, ?_⟩, ?_, hcnt.2, hcnt.1, ?_, hcapc⟩
  · rw [hst]
    exact hwf'
  · rw [hst, hco, hcapc]
    exact hwf.2
  · intro k'
    show (c.get k).2.strategy.find? k' = c.find? k'
    rw [hst]
    exact Strategy.get_find c.strategy k k' (Strategy.keys_nodup_of_wf _ hwf.1)
  · rw [hst]
    exact hco

/-- Specification of `Cache.get` when the key stores a non-`None` value:
the stored value is returned, the hit counter increments, stored values are
untouched, and well-formedness is preserved. -/
theorem Cache.get_hit_spec (c : Cache) (k : Key) (n : Nat) (hwf : c.WF)
    (h : c.find? k = some (some n)) :
    (c.get k).1 = some n ∧ (c.get k).2.WF ∧
    (∀ k', (c.get k).2.find? k' = c.find? k') ∧
    (c.get k).2.misses = c.misses ∧ (c.get k).2.hits = c.hits + 1 ∧
    (c.get k).2.strategy.capacityOf = c.strategy.capacityOf ∧
    (c.get k).2.capacity = c.capacity := by
  have hfst : (c.get k).1 = some n := by
    rw [Cache.get_fst, Strategy.get_fst_eq_find]
    show (c.find? k).getD none = some n
    rw [h]
    rfl
  have hsome : (c.strategy.get k).1.isSome = true := by
    rw [Strategy.get_fst_eq_find]
    show ((c.find? k).getD none).isSome = true
    rw [h]
    rfl
  obtain ⟨hst, hcapc⟩ := Cache.get_strategy c k
  obtain ⟨hwf', hco⟩ := strategy_get_wf c.strategy k hwf.1
  have hcnt := (Cache.get_counts c k).1 hsome
  refine ⟨hfst, ⟨?_, ?_⟩, ?_, hcnt.2, hcnt.1, ?_, hcapc⟩
  · rw [hst]
    exact hwf'
  · rw [hst, hco, hcapc]
    exact hwf.2
  · intro k'
    show (c.get k).2.strategy.find? k' = c.find? k'
    rw [hst]
    exact Strategy.get_find c.strategy k k' (Strategy.keys_nodup_of_wf _ hwf.1)
  · rw [hst]
    exact hco

theorem lru_put_find (s : LRUStrategy) (k : Key) (v : Val)
    (hnd : (keysOf s.cache).Nodup) (hcap : 1 ≤ s.capacity) (ev : Option Key)
    (s' : LRUStrategy) (heq : s.put k v = some (ev, s')) :
    alookup k s'.cache = some v := by
  by_cases hl : (alookup k s.cache).isSome = true
  · rw [lru_put_eq_update s k v hl] at heq
    cases heq
    exact alookup_append_self k _ v (not_mem_keysOf_aerase k s.cache hnd)
  · have hk : k ∉ keysOf s.cache := by
      intro hm
      obtain ⟨w, hw⟩ := alookup_isSome_of_mem k s.cache hm
      simp [hw] at hl
    by_cases hfull : s.capacity ≤ s.cache.length
    · cases hc : s.cache with
      | nil =>
        rw [hc] at hfull
        simp at hfull
        omega
      | cons p rest =>
        obtain ⟨ek, ev₀⟩ := p
        rw [lru_put_eq_evict s k v ek ev₀ rest hl hfull hc] at heq
        cases heq
        refine alookup_append_self k rest v ?_
        intro hm
        apply hk
        rw [hc]
        exact List.mem_cons_of_mem _ hm
    · rw [lru_put_eq_append s k v hl hfull] at heq
      cases heq
      exact alookup_append_self k _ v hk

theorem lfu_put_find (s : LFUStrategy) (k : Key) (v : Val)
    (hwf : s.WF) (hcap : 1 ≤ s.capacity) :
    (alookup k (s.put k v).2.entries).map LFUData.value = some v := by
  by_cases hl : (alookup k s.entries).isSome = true
  · obtain ⟨d, hd⟩ := Option.isSome_iff_exists.mp hl
    rw [lfu_put_eq_update s k v hl]
    show (alookup k (aupdate k _ s.entries)).map LFUData.value = some v
    rw [alookup_aupdate_self, hd]
    rfl
  · have hk : k ∉ keysOf s.entries := by
      intro hm
      obtain ⟨w, hw⟩ := alookup_isSome_of_mem k s.entries hm
      simp [hw] at hl
    by_cases hfull : s.capacity ≤ s.entries.length
    · have hne : s.entries ≠ [] := by
        intro he
        rw [he] at hfull
        simp at hfull
        omega
      obtain ⟨fq, tm, ek, hm, d, hd, _, _⟩ := LFUStrategy.heapMin_exists s hwf hne
      rw [lfu_put_eq_evict s k v fq tm ek hl hfull hm]
      show (alookup k (aerase ek s.entries ++ [(k, ⟨v, 1, s.clock⟩)])).map
        LFUData.value = some v
      rw [alookup_append_self k _ _
        (fun hmm => hk ((keysOf_aerase_sublist ek s.entries).subset hmm))]
      rfl
    · rw [lfu_put_eq_append s k v hl hfull]
      show (alookup k (s.entries ++ [(k, ⟨v, 1, s.clock⟩)])).map LFUData.value = some v
      rw [alookup_append_self k _ _ hk]
      rfl

/-- Specification of `Cache.put`: under well-formedness and capacity ≥ 1 it
succeeds, stores the value, preserves well-formedness and the counters. -/
theorem Cache.put_spec (c : Cache) (k : Key) (v : Val) (hwf : c.WF)
    (hcap : 1 ≤ c.strategy.capacityOf) :
    ∃ ev c', Cache.put c k v = some (ev, c') ∧ c'.WF ∧
      c'.find? k = some v ∧
      c'.strategy.capacityOf = c.strategy.capacityOf ∧
      c'.capacity = c.capacity ∧ c'.hits = c.hits ∧ c'.misses = c.misses := by
  obtain ⟨ev, st', heq, hwf', hco⟩ := strategy_put_wf c.strategy k v hwf.1 hcap
  refine ⟨ev, { c with strategy := st' }, ?_, ⟨hwf', by rw [hco]; exact hwf.2⟩,
    ?_, hco, rfl, rfl, rfl⟩
  · unfold Cache.put
    rw [heq]
    rfl
  · show st'.find? k = some v
    cases hst : c.strategy with
    | lru s =>
      have hswf : s.WF := by
        have h1 := hwf.1
        rw [hst] at h1
        exact h1
      have hscap : 1 ≤ s.capacity := by
        have h2 := hcap
        rw [hst] at h2
        exact h2
      rw [hst] at heq
      simp only [Strategy.put] at heq
      cases hsp : s.put k v with
      | none =>
        rw [hsp] at heq
        exact Option.noConfusion heq
      | some r =>
        obtain ⟨ev₀, s₀⟩ := r
        rw [hsp] at heq
        simp only [Option.map_some', Option.some_inj] at heq
        have h1 : st' = .lru s₀ := (congrArg Prod.snd heq).symm
        rw [h1]
        exact lru_put_find s k v hswf.1 hscap ev₀ s₀ hsp
    | lfu s =>
      have hswf : s.WF := by
        have h1 := hwf.1
        rw [hst] at h1
        exact h1
      have hscap : 1 ≤ s.capacity := by
        have h2 := hcap
        rw [hst] at h2
        exact h2
      rw [hst] at heq
      simp only [Strategy.put, Option.some_inj] at heq
      have h1 : st' = .lfu (s.put k v).2 := (congrArg Prod.snd heq).symm
      rw [h1]
      show (alookup k (s.put k v).2.entries).map LFUData.value = some v
      exact lfu_put_find s k v hswf hscap

/-! ### `get_or_compute` step lemmas -/

theorem eraseLock_append_self (l : List Key) (k : Key) (h : k ∉ l) :
    eraseLock k (l ++ [k]) = l := by
  induction l with
  | nil => simp [eraseLock]
  | cons k' t ih =>
    simp only [List.mem_cons, not_or] at h
    have hk : ¬ k' = k := fun he => h.1 he.symm
    have hstep : eraseLock k (k' :: (t ++ [k])) = k' :: eraseLock k (t ++ [k]) := by
      simp [eraseLock, hk]
    rw [List.cons_append, hstep, ih h.2]

/-- Fast path: a cached non-`None` value is returned immediately; neither
the registry nor the producer is touched. -/
theorem goc_hit (s : CacheStampedePrevention) (k : Key) (n : Nat)
    (f : Key → Nat → Except Nat (Val × Nat)) (ctr : Nat)
    (h1 : (s.cache.get k).1 = some n) :
    s.get_or_compute k f ctr =
      some (.ok (some n), ⟨(s.cache.get k).2, s.key_locks⟩, ctr) := by
  simp only [CacheStampedePrevention.get_or_compute, h1]
  rfl

/-- Slow path with a succeeding producer: on a key that is absent or caches
`None`, the producer runs once, its value is written to the cache, the
registry entry is created and then deleted, and the computed value is
returned.  Both lookups count as misses. -/
theorem goc_miss_ok (s : CacheStampedePrevention) (k : Key)
    (f : Key → Nat → Except Nat (Val × Nat)) (ctr : Nat) (v' : Val) (ctr' : Nat)
    (hwf : s.cache.WF) (hcap : 1 ≤ s.cache.strategy.capacityOf)
    (hk : s.cache.find? k = none ∨ s.cache.find? k = some none)
    (hf : f k ctr = .ok (v', ctr')) :
    ∃ c₃ ev, s.get_or_compute k f ctr =
      some (.ok v', ⟨c₃,
        eraseLock k (if k ∈ s.key_locks then s.key_locks else s.key_locks ++ [k])⟩,
        ctr') ∧
      Cache.put ((s.cache.get k).2.get k).2 k v' = some (ev, c₃) ∧
      c₃.WF ∧ c₃.find? k = some v' ∧
      c₃.hits = s.cache.hits ∧ c₃.misses = s.cache.misses + 2 ∧
      c₃.strategy.capacityOf = s.cache.strategy.capacityOf ∧
      c₃.capacity = s.cache.capacity := by
  obtain ⟨h1, hwf₁, hpres₁, hm₁, hh₁, hco₁, hcap₁⟩ := Cache.get_miss_spec s.cache k hwf hk
  have hk₁ : (s.cache.get k).2.find? k = none ∨
      (s.cache.get k).2.find? k = some none := by
    rw [hpres₁ k]
    exact hk
  obtain ⟨h2, hwf₂, hpres₂, hm₂, hh₂, hco₂, hcap₂⟩ :=
    Cache.get_miss_spec (s.cache.get k).2 k hwf₁ hk₁
  obtain ⟨ev, c₃, hput, hwf₃, hfind₃, hco₃, hcap₃, hh₃, hm₃⟩ :=
    Cache.put_spec ((s.cache.get k).2.get k).2 k v' hwf₂
      (by rw [hco₂, hco₁]; exact hcap)
  refine ⟨c₃, ev, ?_, hput, hwf₃, hfind₃, ?_, ?_, ?_, ?_⟩
  · simp only [CacheStampedePrevention.get_or_compute, h1, h2, hf, hput]
    rfl
  · rw [hh₃, hh₂, hh₁]
  · rw [hm₃, hm₂, hm₁]
  · rw [hco₃, hco₂, hco₁]
  · rw [hcap₃, hcap₂, hcap₁]

/-- Slow path with a failing producer on an absent key: the error
propagates, the cache is unchanged except for two recorded misses, and —
because the deletion happens only after a successful `put` — the registry
entry for the key is left in place. -/
theorem goc_fail_absent (s : CacheStampedePrevention) (k : Key)
    (f : Key → Nat → Except Nat (Val × Nat)) (ctr : Nat) (e : Nat)
    (hk : s.cache.find? k = none) (hf : f k ctr = .error e) :
    s.get_or_compute k f ctr = some (.error e,
      ⟨{ s.cache with misses := s.cache.misses + 1 + 1 },
        if k ∈ s.key_locks then s.key_locks else s.key_locks ++ [k]⟩, ctr) := by
  have hg1 := Cache.get_absent s.cache k hk
  have hk1 : ({ s.cache with misses := s.cache.misses + 1 } : Cache).find? k = none := hk
  have hg2 := Cache.get_absent { s.cache with misses := s.cache.misses + 1 } k hk1
  simp only [CacheStampedePrevention.get_or_compute, hg1, hg2, hf]
  rfl

/-- Sequential calls with the counting `None`-returning producer: every
call recomputes (the counter advances by one per call), the cached entry
stays `None`, and every call records two misses. -/
theorem runCalls_none_producer (k : Key) (n : Nat) :
    ∀ (s : CacheStampedePrevention) (ctr : Nat),
    s.cache.WF → 1 ≤ s.cache.strategy.capacityOf →
    (s.cache.find? k = none ∨ s.cache.find? k = some none) →
    k ∉ s.key_locks →
    ∃ s', CacheStampedePrevention.runCalls k (fun _ c => .ok (none, c + 1)) n (s, ctr) =
      some (List.replicate n (.ok none), s', ctr + n) ∧
      s'.cache.WF ∧
      (s'.cache.find? k = none ∨ s'.cache.find? k = some none) ∧
      (1 ≤ n → s'.cache.find? k = some none) ∧
      s'.cache.misses = s.cache.misses + 2 * n ∧
      s'.cache.hits = s.cache.hits ∧
      s'.cache.strategy.capacityOf = s.cache.strategy.capacityOf ∧
      s'.key_locks = s.key_locks := by
  induction n with
  | zero =>
    intro s ctr hwf hcap hk hkl
    exact ⟨s, rfl, hwf, hk, fun h => absurd h (by omega), by omega, rfl, rfl, rfl⟩
  | succ m ih =>
    intro s ctr hwf hcap hk hkl
    obtain ⟨c₃, ev, hgoc, hput, hwf₃, hfind₃, hh₃, hm₃, hco₃, hcap₃⟩ :=
      goc_miss_ok s k (fun _ c => .ok (none, c + 1)) ctr none (ctr + 1) hwf hcap hk rfl
    have hlocks : eraseLock k
        (if k ∈ s.key_locks then s.key_locks else s.key_locks ++ [k]) = s.key_locks := by
      rw [if_neg hkl]
      exact eraseLock_append_self s.key_locks k hkl
    obtain ⟨s', hrun, hwf', hk', hk1', hm', hh', hco', hkl'⟩ :=
      ih ⟨c₃, eraseLock k (if k ∈ s.key_locks then s.key_locks else s.key_locks ++ [k])⟩
        (ctr + 1) hwf₃ (by rw [hco₃]; exact hcap) (Or.inr hfind₃)
        (by rw [hlocks]; exact hkl)
    refine ⟨s', ?_, hwf', hk', fun _ => ?_, ?_, ?_, ?_, ?_⟩
    · show CacheStampedePrevention.runCalls k (fun _ c => .ok (none, c + 1)) (m + 1) (s, ctr) = _
      simp only [CacheStampedePrevention.runCalls, hgoc, hrun, Option.map_some']
      have harith : ctr + 1 + m = ctr + (m + 1) := by omega
      rw [harith, List.replicate_succ]
    · cases Nat.eq_zero_or_pos m with
      | inl h0 =>
        subst h0
        simp only [CacheStampedePrevention.runCalls, Option.some_inj] at hrun
        have hs' : s' = ⟨c₃, eraseLock k
            (if k ∈ s.key_locks then s.key_locks else s.key_locks ++ [k])⟩ :=
          (congrArg (fun q => q.2.1) hrun).symm
        rw [hs']
        exact hfind₃
      | inr hpos => exact hk1' hpos
    · rw [hm', hm₃]
      omega
    · rw [hh', hh₃]
    · rw [hco', hco₃]
    · rw [hkl', hlocks]

/-- Sequential calls on a key cached with a non-`None` value: every call
takes the fast path and returns the cached value; the counter and the
registry are untouched. -/
theorem runCalls_cached (k : Key) (v : Nat)
    (f : Key → Nat → Except Nat (Val × Nat)) (n : Nat) :
    ∀ (s : CacheStampedePrevention) (ctr : Nat),
    s.cache.WF → s.cache.find? k = some (some v) →
    ∃ s', CacheStampedePrevention.runCalls k f n (s, ctr) =
      some (List.replicate n (.ok (some v)), s', ctr) ∧
      s'.cache.WF ∧ s'.cache.find? k = some (some v) ∧
      s'.key_locks = s.key_locks := by
  induction n with
  | zero =>
    intro s ctr hwf hk
    exact ⟨s, rfl, hwf, hk, rfl⟩
  | succ m ih =>
    intro s ctr hwf hk
    obtain ⟨h1, hwf₁, hpres₁, hm₁, hh₁, hco₁, hcap₁⟩ := Cache.get_hit_spec s.cache k v hwf hk
    have hgoc := goc_hit s k v f ctr h1
    obtain ⟨s', hrun, hwf', hk', hkl'⟩ :=
      ih ⟨(s.cache.get k).2, s.key_locks⟩ ctr hwf₁ (by rw [hpres₁ k]; exact hk)
    refine ⟨s', ?_, hwf', hk', hkl'⟩
    show CacheStampedePrevention.runCalls k f (m + 1) (s, ctr) = _
    simp only [CacheStampedePrevention.runCalls, hgoc, hrun, Option.map_some']
    rw [List.replicate_succ]

/-! ### Claim C10 -/

/-- C10 (confirmed): a producer that returns `None` defeats caching in
`get_or_compute`: the first call writes `None` for the key, yet each of the
`n` sequential calls invokes the producer again (the shared counter ends at
`n`, not 1), because the cached `None` is indistinguishable from a miss at
the `get` interface; every lookup (two per call) increments the miss
counter even though the key is present in the cache. -/
theorem C10_cached_none_defeats_caching (cap : Nat) (hcap : 1 ≤ cap)
    (init : Cache)
    (hinit : init = CacheFactory.create_lru_cache cap ∨
      init = CacheFactory.create_lfu_cache cap)
    (k : Key) (n : Nat) (hn : 1 ≤ n) :
    ∃ s', CacheStampedePrevention.runCalls k (fun _ c => .ok (none, c + 1)) n
        (⟨init, []⟩, 0) =
      some (List.replicate n (.ok none), s', n) ∧
      s'.cache.find? k = some none ∧ k ∈ s'.cache.keys ∧
      s'.cache.misses = 2 * n ∧ s'.cache.hits = 0 := by
  have hwf : init.WF ∧ init.strategy.capacityOf = cap ∧ init.find? k = none ∧
      init.hits = 0 ∧ init.misses = 0 := by
    rcases hinit with rfl | rfl
    · exact ⟨⟨⟨List.nodup_nil, by simp [LRUStrategy.init]⟩, rfl⟩, rfl, rfl, rfl, rfl⟩
    · exact ⟨⟨⟨List.nodup_nil, by simp [LFUStrategy.init], rfl,
        fun p hp => absurd hp (List.not_mem_nil p), List.nodup_nil⟩, rfl⟩, rfl, rfl, rfl, rfl⟩
  obtain ⟨s', hrun, hwf', _, hk1', hm', hh', _, _⟩ :=
    runCalls_none_producer k n ⟨init, []⟩ 0 hwf.1 (by rw [hwf.2.1]; exact hcap)
      (Or.inl hwf.2.2.1) (List.not_mem_nil k)
  have hfind := hk1' hn
  refine ⟨s', ?_, hfind, Cache.mem_keys_of_find s'.cache k none hfind, ?_, ?_⟩
  · rw [hrun, Nat.zero_add]
  · rw [hm', hwf.2.2.2.2]
    omega
  · rw [hh', hwf.2.2.2.1]

/-- Witness for C10 at two calls on a fresh capacity-2 LRU cache. -/
theorem C10_cached_none_defeats_caching_witness :
    ∃ s', CacheStampedePrevention.runCalls 0 (fun _ c => .ok (none, c + 1)) 2
        (⟨CacheFactory.create_lru_cache 2, []⟩, 0) =
      some (List.replicate 2 (.ok none), s', 2) ∧
      s'.cache.find? 0 = some none ∧ 0 ∈ s'.cache.keys ∧
      s'.cache.misses = 2 * 2 ∧ s'.cache.hits = 0 :=
  C10_cached_none_defeats_caching 2 (by decide) _ (Or.inl rfl) 0 2 (by decide)

/-! ### Claim C5 -/

/-- C5 counterexample: on a fresh coordinator over an empty capacity-2 LRU
cache, a failing producer for key 0 propagates its error, but the
coordinator registry afterwards still holds the entry for key 0 — it is
not removed, refuting "removes the coordinator's registry entry for k"
(there is no try/finally around the compute in the source). -/
theorem C5_counterexample :
    ∃ s₁, CacheStampedePrevention.get_or_compute
        ⟨CacheFactory.create_lru_cache 2, []⟩ 0 (fun _ _ => .error 7) 0 =
      some (.error 7, s₁, 0) ∧ s₁.key_locks = [0] := by
  exact ⟨⟨⟨2, .lru ⟨2, []⟩, 0, 2⟩, [0]⟩, rfl, rfl⟩

/-- C5 (amended): for a key not present in the cache and a failing
producer, `get_or_compute` propagates the failure, writes no entry (the
strategy state — values and metadata — is unchanged; only the miss
counter grows by the two lookups), but the per-key registry entry is *not*
removed: it remains until a subsequent successful call deletes it.  A
subsequent `get_or_compute` with a succeeding producer returns that
producer's value normally, caches it, and removes the registry entry. -/
theorem C5_producer_failure_retry (s : CacheStampedePrevention) (k : Key)
    (hwf : s.cache.WF) (hcap : 1 ≤ s.cache.strategy.capacityOf)
    (hk : s.cache.find? k = none) (hkl : k ∉ s.key_locks)
    (f f' : Key → Nat → Except Nat (Val × Nat)) (ctr ctr₁ ctr₂ : Nat)
    (e : Nat) (v' : Nat)
    (hf : f k ctr = .error e) (hf' : f' k ctr₁ = .ok (some v', ctr₂)) :
    ∃ s₁, s.get_or_compute k f ctr = some (.error e, s₁, ctr) ∧
      s₁.cache.strategy = s.cache.strategy ∧
      s₁.cache.find? k = none ∧
      s₁.cache.misses = s.cache.misses + 2 ∧ s₁.cache.hits = s.cache.hits ∧
      k ∈ s₁.key_locks ∧
      ∃ s₂, s₁.get_or_compute k f' ctr₁ = some (.ok (some v'), s₂, ctr₂) ∧
        s₂.cache.find? k = some (some v') ∧ s₂.cache.WF ∧
        k ∉ s₂.key_locks := by
  have hfail := goc_fail_absent s k f ctr e hk hf
  rw [if_neg hkl] at hfail
  refine ⟨⟨{ s.cache with misses := s.cache.misses + 1 + 1 }, s.key_locks ++ [k]⟩,
    hfail, rfl, hk, rfl, rfl, by simp, ?_⟩
  have hwf₁ : ({ s.cache with misses := s.cache.misses + 1 + 1 } : Cache).WF := hwf
  obtain ⟨c₃, ev, hgoc, hput, hwf₃, hfind₃, hh₃, hm₃, hco₃, hcap₃⟩ :=
    goc_miss_ok ⟨{ s.cache with misses := s.cache.misses + 1 + 1 }, s.key_locks ++ [k]⟩
      k f' ctr₁ (some v') ctr₂ hwf₁ hcap (Or.inl hk) hf'
  rw [if_pos (by simp)] at hgoc
  refine ⟨⟨c₃, eraseLock k (s.key_locks ++ [k])⟩, hgoc, hfind₃, hwf₃, ?_⟩
  rw [eraseLock_append_self s.key_locks k hkl]
  exact hkl

/-- Witness for C5: concrete failing-then-succeeding producers on a fresh
capacity-2 LRU cache. -/
theorem C5_producer_failure_retry_witness :
    ∃ s₁, CacheStampedePrevention.get_or_compute
        ⟨CacheFactory.create_lru_cache 2, []⟩ 5 (fun _ _ => .error 7) 0 =
      some (.error 7, s₁, 0) ∧
      s₁.cache.strategy = (CacheFactory.create_lru_cache 2).strategy ∧
      s₁.cache.find? 5 = none ∧
      s₁.cache.misses = (CacheFactory.create_lru_cache 2).misses + 2 ∧
      s₁.cache.hits = (CacheFactory.create_lru_cache 2).hits ∧
      5 ∈ s₁.key_locks ∧
      ∃ s₂, s₁.get_or_compute 5 (fun _ _ => .ok (some 42, 9)) 1 =
          some (.ok (some 42), s₂, 9) ∧
        s₂.cache.find? 5 = some (some 42) ∧ s₂.cache.WF ∧
        5 ∉ s₂.key_locks :=
  C5_producer_failure_retry ⟨CacheFactory.create_lru_cache 2, []⟩ 5
    (by exact ⟨⟨List.nodup_nil, by decide⟩, rfl⟩) (by decide) rfl (by decide)
    (fun _ _ => .error 7) (fun _ _ => .ok (some 42, 9)) 0 1 9 7 42 rfl rfl

/-! ### Claim C4 -/

/-- C4 counterexample: two `get_or_compute` calls for the same missing key
(a sequential schedule of two concurrent callers) with a counting producer
that returns `None` leave the shared counter at 2, refuting "the counter
equals exactly 1 after all N calls return" for every producer. -/
theorem C4_counterexample :
    (CacheStampedePrevention.runCalls 0 (fun _ c => .ok (none, c + 1)) 2
      (⟨CacheFactory.create_lru_cache 2, []⟩, 0)).map (fun q => q.2.2) = some 2 ∧
    ¬ (CacheStampedePrevention.runCalls 0 (fun _ c => .ok (none, c + 1)) 2
      (⟨CacheFactory.create_lru_cache 2, []⟩, 0)).map (fun q => q.2.2) = some 1 := by
  constructor
  · decide
  · decide

/-- C4 (amended): for a key absent from the cache and a counting producer
returning a non-`None` value, `n ≥ 1` `get_or_compute` calls in a
sequential schedule (the interleaved case is outside this embedding)
execute the producer exactly once — the shared counter ends at 1 — and
every call returns the identical computed value, which is cached. -/
theorem C4_stampede_single_execution (cap : Nat) (hcap : 1 ≤ cap)
    (init : Cache)
    (hinit : init = CacheFactory.create_lru_cache cap ∨
      init = CacheFactory.create_lfu_cache cap)
    (k : Key) (v : Nat) (n : Nat) (hn : 1 ≤ n) :
    ∃ s', CacheStampedePrevention.runCalls k (fun _ c => .ok (some v, c + 1)) n
        (⟨init, []⟩, 0) =
      some (List.replicate n (.ok (some v)), s', 1) ∧
      s'.cache.find? k = some (some v) ∧ s'.key_locks = [] := by
  have hwf : init.WF ∧ init.strategy.capacityOf = cap ∧ init.find? k = none := by
    rcases hinit with rfl | rfl
    · exact ⟨⟨⟨List.nodup_nil, by simp [LRUStrategy.init]⟩, rfl⟩, rfl, rfl⟩
    · exact ⟨⟨⟨List.nodup_nil, by simp [LFUStrategy.init], rfl,
        fun p hp => absurd hp (List.not_mem_nil p), List.nodup_nil⟩, rfl⟩, rfl, rfl⟩
  obtain ⟨m, rfl⟩ : ∃ m, n = m + 1 := ⟨n - 1, by omega⟩
  obtain ⟨c₃, ev, hgoc, hput, hwf₃, hfind₃, hh₃, hm₃, hco₃, hcap₃⟩ :=
    goc_miss_ok ⟨init, []⟩ k (fun _ c => .ok (some v, c + 1)) 0 (some v) 1
      hwf.1 (by rw [hwf.2.1]; exact hcap) (Or.inl hwf.2.2) rfl
  have hlocks : eraseLock k
      (if k ∈ ([] : List Key) then ([] : List Key) else [] ++ [k]) = [] := by
    rw [if_neg (List.not_mem_nil k)]
    exact eraseLock_append_self [] k (List.not_mem_nil k)
  obtain ⟨s', hrun, hwf', hk', hkl'⟩ :=
    runCalls_cached k v (fun _ c => .ok (some v, c + 1)) m
      ⟨c₃, eraseLock k (if k ∈ ([] : List Key) then ([] : List Key) else [] ++ [k])⟩ 1
      hwf₃ hfind₃
  refine ⟨s', ?_, hk', by rw [hkl', hlocks]⟩
  show CacheStampedePrevention.runCalls k (fun _ c => .ok (some v, c + 1)) (m + 1)
    (⟨init, []⟩, 0) = _
  simp only [CacheStampedePrevention.runCalls, hgoc, hrun, Option.map_some']
  rw [List.replicate_succ]

/-- Witness for C4 (amended) at three calls on a fresh capacity-2 LFU
cache. -/
theorem C4_stampede_single_execution_witness :
    ∃ s', CacheStampedePrevention.runCalls 0 (fun _ c => .ok (some 9, c + 1)) 3
        (⟨CacheFactory.create_lfu_cache 2, []⟩, 0) =
      some (List.replicate 3 (.ok (some 9)), s', 1) ∧
      s'.cache.find? 0 = some (some 9) ∧ s'.key_locks = [] :=
  C4_stampede_single_execution 2 (by decide) _ (Or.inr rfl) 0 9 3 (by decide)

end CacheSystem
